import Mathlib

/-!
Verification of the chip-identification and performance report engine
(`report.c`) of the Embedded-System firmware.

The engine is embedded shallowly:
* C `float` values are modelled as exact rationals (`ℚ`); the C sentinel
  `NAN` is modelled as `none` in `Option ℚ` where a NaN is observable.
  Arithmetic is therefore exact where the C code rounds; every claim below
  is settled in this idealised-arithmetic model.
* C strings are modelled as `String` (or `List Char` where byte-level
  buffer arithmetic matters, namely the slash-separated candidate cells).
* CSV lines are modelled at cell level: a line is the `List String` of its
  comma-separated cells.  The byte-level concerns handled upstream of cell
  splitting in C (line reading, 511-byte line truncation, the comma/tab
  auto-detection of the catalogue) are outside this embedding; `strtok`
  semantics (empty cells are skipped, so they shift field indices) are
  modelled faithfully.
* `sqrtf` is not rational, so a stats object stores the population
  variance (`stddevSq`); the C `stddev` is `sqrtf` of it, so equality of
  `stddevSq` implies equality of `stddev`, and the formatting threshold
  `|stddev| < 1e-3` is the threshold `stddevSq < 1e-6` on the variance.
-/

set_option allowUnsafeReducibility true
attribute [local semireducible] Rat.mul Rat.inv Rat.add Rat.sub Rat.neg Rat.div Rat.ofScientific

namespace Report

/-! ## Small utilities (report.c lines 107-189) -/

/-- Character class of C `isxdigit`. -/
def isHexDig (c : Char) : Bool :=
  c.isDigit || ('a' ≤ c && c ≤ 'f') || ('A' ≤ c && c ≤ 'F')

/-- Embeds `trim` (report.c): strip trailing CR/LF/space/tab, then leading
space/tab. -/
def trimChars (l : List Char) : List Char :=
  ((l.reverse.dropWhile fun c => c = '\r' ∨ c = '\n' ∨ c = ' ' ∨ c = '\t').reverse).dropWhile
    fun c => c = ' ' ∨ c = '\t'

/-- Embeds `normalize_jedec` (report.c): keep the hex digits of the input,
upper-cased, stopping after six; the result is kept only when exactly six
hex digits were collected (i.e. the input holds at least six hex digits),
otherwise the row is JEDEC-less (`[]`).  The explicit skip of `x`/`X` in the
C loop is subsumed by the hex-digit filter. -/
def normalize_jedec (s : List Char) : List Char :=
  let tmp := ((s.filter isHexDig).map Char.toUpper).take 6
  if tmp.length = 6 then tmp else []

/-- Digit value of a decimal digit character. -/
def digVal (c : Char) : Nat := c.toNat - '0'.toNat

/-- Natural number denoted by a list of decimal digit characters. -/
def digitsVal (l : List Char) : Nat := l.foldl (fun a c => 10 * a + digVal c) 0

/-- Embeds `parse_int_or` (report.c), i.e. `strtol(s, _, 10)` with a
fallback: skip leading whitespace, optional sign, then decimal digits; if no
digit is consumed the fallback is returned. -/
def parse_int_or (s : String) (fallback : Int) : Int :=
  let l := s.toList.dropWhile Char.isWhitespace
  let (neg, l) : Bool × List Char :=
    match l with
    | '-' :: r => (true, r)
    | '+' :: r => (false, r)
    | r => (false, r)
  let ds := l.takeWhile Char.isDigit
  if ds = [] then fallback
  else if neg then -(digitsVal ds : Int) else (digitsVal ds : Int)

/-- Embeds `parse_float_or` (report.c), i.e. `strtof` with a fallback, for
decimal literals with an optional fraction and exponent (the hex-float and
inf/nan forms of `strtof` are outside the model): skip leading whitespace,
optional sign, integer digits, optional `.` and fraction digits, optional
exponent consumed only when digits follow the `e`; if no mantissa digit is
consumed the fallback is returned. -/
def parse_float_or (s : String) (fallback : ℚ) : ℚ :=
  let l := s.toList.dropWhile Char.isWhitespace
  let (neg, l) : Bool × List Char :=
    match l with
    | '-' :: r => (true, r)
    | '+' :: r => (false, r)
    | r => (false, r)
  let ds := l.takeWhile Char.isDigit
  let rest := l.dropWhile Char.isDigit
  let fs : List Char :=
    match rest with
    | '.' :: r => r.takeWhile Char.isDigit
    | _ => []
  if ds = [] ∧ fs = [] then fallback
  else
    let rest2 : List Char :=
      match rest with
      | '.' :: r => r.dropWhile Char.isDigit
      | r => r
    let expPart : Int :=
      match rest2 with
      | 'e' :: r | 'E' :: r =>
        let (eneg, r) : Bool × List Char :=
          match r with
          | '-' :: r2 => (true, r2)
          | '+' :: r2 => (false, r2)
          | r2 => (false, r2)
        let eds := r.takeWhile Char.isDigit
        if eds = [] then 0 else if eneg then -(digitsVal eds : Int) else (digitsVal eds : Int)
      | _ => 0
    let mant : ℚ := (digitsVal ds : ℚ) + (digitsVal fs : ℚ) / ((10 : ℚ) ^ fs.length)
    let v : ℚ := mant * (10 : ℚ) ^ expPart
    if neg then -v else v

/-! ## Size groups (report.c lines 56-105, 316-331) -/

/-- Embeds `group_t`: the closed size-group enumeration. -/
inductive Group : Type where
  | g1B | g256B | g4K | g32K | g64K | gWhole
  deriving DecidableEq, Repr

/-- Catalogue order of the groups, as iterated by every `for (g …)` loop. -/
def groupList : List Group := [.g1B, .g256B, .g4K, .g32K, .g64K, .gWhole]

/-- Embeds `GROUP_BYTES` together with the `g == G_WHOLE ? capacity_bytes :`
selections: byte width of a group (WHOLE resolves to the capacity). -/
def groupBytes (g : Group) (capacity : Nat) : Nat :=
  match g with
  | .g1B => 1
  | .g256B => 256
  | .g4K => 4096
  | .g32K => 32768
  | .g64K => 65536
  | .gWhole => capacity

/-- Embeds `classify_group` (report.c lines 316-331): the five fixed widths
are checked before the WHOLE comparison; `none` models the `(group_t)(-1)`
failure value. -/
def classify_group (bytes : Nat) (whole_bytes : Nat) : Option Group :=
  if bytes = 1 then some .g1B
  else if bytes = 256 then some .g256B
  else if bytes = 4096 then some .g4K
  else if bytes = 32768 then some .g32K
  else if bytes = 65536 then some .g64K
  else if whole_bytes ≠ 0 ∧ bytes = whole_bytes then some .gWhole
  else none

/-! ## Statistics (report.c lines 191-281) -/

/-- Embeds `stats_t`.  `none` models the C `NAN`; `stddevSq` is the
population variance, of which the C `stddev` field is `sqrtf`. -/
structure Stats where
  n : Nat
  mean : Option ℚ
  p25 : Option ℚ
  p50 : Option ℚ
  p75 : Option ℚ
  minv : Option ℚ
  maxv : Option ℚ
  stddevSq : Option ℚ
  deriving DecidableEq, Repr

/-- Ascending sort used by `safe_copy_sort` (`qsort` with `cmp_float_asc`). -/
def sortAsc (v : List ℚ) : List ℚ := v.insertionSort (· ≤ ·)

/-- Embeds `percentile_sorted` (report.c lines 222-235) on a pre-sorted
ascending list: linear interpolation between the neighbours of
`q * (n - 1)`. -/
def percentile_sorted (v : List ℚ) (q : ℚ) : Option ℚ :=
  match v with
  | [] => none
  | x :: xs =>
    if q ≤ 0 then some x
    else if 1 ≤ q then some ((x :: xs).getLast (by simp))
    else
      let pos : ℚ := q * (((x :: xs).length : ℚ) - 1)
      let i : Nat := (⌊pos⌋).toNat
      let j : Nat := (⌈pos⌉).toNat
      let t : ℚ := pos - (i : ℚ)
      some ((1 - t) * (x :: xs).getD i 0 + t * (x :: xs).getD j 0)

/-- Fold of the running-minimum scan in `calc_stats_from_vec`. -/
def foldMin (x : ℚ) (xs : List ℚ) : ℚ := xs.foldl (fun a b => if b < a then b else a) x

/-- Fold of the running-maximum scan in `calc_stats_from_vec`. -/
def foldMax (x : ℚ) (xs : List ℚ) : ℚ := xs.foldl (fun a b => if a < b then b else a) x

/-- Embeds `calc_stats_from_vec` (report.c lines 236-281): mean, quartiles
over an ascending sorted copy, running min/max, population variance
(`stddevSq`, of which the C `stddev` is the square root).  An empty vector
yields the all-`NAN` stats object. -/
def calc_stats_from_vec (v : List ℚ) : Stats :=
  match v with
  | [] => ⟨0, none, none, none, none, none, none, none⟩
  | x :: xs =>
    let n : Nat := (x :: xs).length
    let mean : ℚ := (x :: xs).sum / (n : ℚ)
    let sorted := sortAsc (x :: xs)
    { n := n
      mean := some mean
      p25 := percentile_sorted sorted (1/4)
      p50 := percentile_sorted sorted (1/2)
      p75 := percentile_sorted sorted (3/4)
      minv := some (foldMin x xs)
      maxv := some (foldMax x xs)
      stddevSq := some (((x :: xs).map (fun a => (a - mean) ^ 2)).sum / (n : ℚ)) }

/-! ## Aggregation (report.c lines 283-467) -/

/-- The five per-sample vectors filled by `collect_aggregates`:
read MB/s, read latency in µs, read latency in ms, program ms, erase ms. -/
inductive Vek : Type where
  | readMB | readUs | readLat | writeMs | eraseMs
  deriving DecidableEq, Repr

/-- Field array of one results line as built by the `strtok(work, ",")` loop
in `collect_aggregates`: `strtok` skips empty cells, and at most 16 tokens
are collected. -/
def lineFields (line : List String) : List String :=
  (line.filter (· ≠ "")).take 16

/-- Value a results line pushes into the vector `(k, g)`, if any: this is
one iteration of the `collect_aggregates` reading loop (report.c lines
360-424).  Lines with fewer than six fields are skipped; field 1 is the
operation, field 2 the size (cast through `uint32_t`), field 4 the elapsed
time in µs.  A read line with positive elapsed and size contributes its
MB/s (when positive), its elapsed µs and its elapsed ms; a program/write or
erase line with positive elapsed contributes its elapsed ms. -/
def lineVal (capacity_bytes : Nat) (line : List String) (k : Vek) (g : Group) : Option ℚ :=
  let flds := lineFields line
  if flds.length < 6 then none
  else
    let op := flds.getD 1 ""
    let size : Nat := ((parse_int_or (flds.getD 2 "") 0) % (2 ^ 32 : Int)).toNat
    let elapsed_us : ℚ := parse_float_or (flds.getD 4 "") (-1)
    match classify_group size capacity_bytes with
    | none => none
    | some g' =>
      if g' ≠ g then none
      else if op = "read" then
        if 0 < elapsed_us ∧ 0 < size then
          match k with
          | .readMB =>
            let secs : ℚ := elapsed_us / 1000000
            let mb : ℚ := (size : ℚ) / (1024 * 1024)
            let mbps : ℚ := mb / secs
            if 0 < mbps then some mbps else none
          | .readUs => some elapsed_us
          | .readLat => some (elapsed_us / 1000)
          | _ => none
        else none
      else if op = "program" ∨ op = "write" then
        if k = .writeMs ∧ 0 < elapsed_us then some (elapsed_us / 1000) else none
      else if op = "erase" then
        if k = .eraseMs ∧ 0 < elapsed_us then some (elapsed_us / 1000) else none
      else none

/-- Vector accumulated for `(k, g)` over the whole results stream, in stream
order (each line pushes at most one value per vector). -/
def vecOf (capacity_bytes : Nat) (lines : List (List String)) (k : Vek) (g : Group) :
    List ℚ :=
  lines.filterMap (fun line => lineVal capacity_bytes line k g)

/-- Embeds `agg_t` (report.c lines 289-297). -/
structure Agg where
  sck : ℚ
  read_s : Group → Stats
  write_s : Group → Stats
  erase_s : Group → Stats
  read_lat_ms : Group → Stats
  read_mean_us : Group → Option ℚ

/-- Embeds `collect_aggregates` (report.c lines 336-454): one pass over the
results stream filling the per-group vectors, then `calc_stats_from_vec` on
each; `read_mean_us` is the arithmetic mean of the read latencies in µs.
The SPI clock is the hardware context (`flash_spi_get_baud_hz() / 1e6`),
passed in as `sck`. -/
def collect_aggregates (sck : ℚ) (capacity_bytes : Nat) (lines : List (List String)) :
    Agg where
  sck := sck
  read_s := fun g => calc_stats_from_vec (vecOf capacity_bytes lines .readMB g)
  write_s := fun g => calc_stats_from_vec (vecOf capacity_bytes lines .writeMs g)
  erase_s := fun g => calc_stats_from_vec (vecOf capacity_bytes lines .eraseMs g)
  read_lat_ms := fun g => calc_stats_from_vec (vecOf capacity_bytes lines .readLat g)
  read_mean_us := fun g =>
    let u := vecOf capacity_bytes lines .readUs g
    if u = [] then none else some (u.sum / (u.length : ℚ))

/-! ## Catalogue rows and loader (report.c lines 39-54, 469-588) -/

/-- Embeds `db_row_t`.  Numeric datasheet fields keep the C sentinel
convention: `-1` (or any non-positive value) means absent, and every use
site guards with `> 0`. -/
structure DbRow where
  jedec : List Char
  chip_model : String
  company : String
  family : String
  capacity_mbit : Int
  typ_4k_ms : ℚ
  typ_32k_ms : ℚ
  typ_64k_ms : ℚ
  typ_page_ms : ℚ
  read50_MBps : ℚ
  deriving DecidableEq, Repr

/-- Column indices recovered from the catalogue header line by the
substring scan in `load_database` (report.c lines 489-519); `none` models
the `-1` of an absent column. -/
structure ColIdx where
  model : Option Nat
  company : Option Nat
  family : Option Nat
  capacity : Option Nat
  jedec : Option Nat
  typprog : Option Nat
  typ4k : Option Nat
  typ32k : Option Nat
  typ64k : Option Nat
  read50 : Option Nat
  deriving DecidableEq, Repr

/-- Field array of one catalogue data line as built by `split_fields`:
`strtok` skips empty cells and at most 64 tokens are collected. -/
def dbFields (line : List String) : List String :=
  (line.filter (· ≠ "")).take 64

/-- Embeds the `c <= 1` skip of `load_database`: a data line is retained
only when it splits into at least two fields (an empty line splits into
none and is likewise skipped). -/
def dbParseable (line : List String) : Bool :=
  2 ≤ (dbFields line).length

/-- Reads field `i` of a data line when the column exists and the line is
long enough (`idx >= 0 && idx < c`). -/
def dbField (flds : List String) (i : Option Nat) : Option String :=
  match i with
  | none => none
  | some k => if k < flds.length then some (flds.getD k "") else none

/-- Embeds the per-line body of `load_database` (report.c lines 536-584):
sentinel defaults, then each present column parsed into the row.  The
`strncpy` bounds of the C buffers are applied before parsing (31 bytes for
the JEDEC text, 63/47/47 for model/company/family). -/
def parseDbRow (idx : ColIdx) (line : List String) : DbRow :=
  let flds := dbFields line
  let txt : Option String → Nat → String := fun f n =>
    match f with
    | none => ""
    | some s => ((trimChars (s.toList.take n)).asString)
  { jedec :=
      match dbField flds idx.jedec with
      | none => []
      | some s => normalize_jedec (trimChars (s.toList.take 31))
    chip_model := txt (dbField flds idx.model) 63
    company := txt (dbField flds idx.company) 47
    family := txt (dbField flds idx.family) 47
    capacity_mbit :=
      match dbField flds idx.capacity with
      | none => -1
      | some s => parse_int_or s (-1)
    typ_page_ms :=
      match dbField flds idx.typprog with
      | none => -1
      | some s => parse_float_or s (-1)
    typ_4k_ms :=
      match dbField flds idx.typ4k with
      | none => -1
      | some s => parse_float_or s (-1)
    typ_32k_ms :=
      match dbField flds idx.typ32k with
      | none => -1
      | some s => parse_float_or s (-1)
    typ_64k_ms :=
      match dbField flds idx.typ64k with
      | none => -1
      | some s => parse_float_or s (-1)
    read50_MBps :=
      match dbField flds idx.read50 with
      | none => -1
      | some s => parse_float_or s (-1) }

/-- Embeds the data loop of `load_database` (report.c lines 521-585): lines
are consumed in order, unparseable ones are skipped silently, and the loop
stops once `max_rows` rows have been stored.  The header line has already
been consumed to produce `idx`. -/
def load_database (idx : ColIdx) : Nat → List (List String) → List DbRow
  | _, [] => []
  | 0, _ :: _ => []
  | maxRows + 1, line :: rest =>
    if dbParseable line then parseDbRow idx line :: load_database idx maxRows rest
    else load_database idx (maxRows + 1) rest

/-- The `MAX_DB_ROWS` constant (report.c line 19). -/
def MAX_DB_ROWS : Nat := 512

/-! ## Datasheet matcher (report.c lines 731-900) -/

/-- Embeds `float_almost_equal` (report.c lines 735-749) on non-NaN values
(either operand being NaN yields false at every call site through the
`Option` guards): absolute tolerance `1e-4`, then the tiny-magnitude branch,
then relative tolerance `1e-3` of the larger magnitude. -/
def float_almost_equal (a b : ℚ) : Bool :=
  let diff := |a - b|
  if diff < 1/10000 then true
  else
    let maxab := max |a| |b|
    if maxab < 1/1000000 then diff < 1/1000000
    else diff / maxab < 1/1000

/-- The operations of the report (columns of the pivot). -/
inductive Oper : Type where
  | read | prog | erase
  deriving DecidableEq, Repr

/-- Embeds the page count `(bytes + PAGE_SIZE_BYTES - 1) / PAGE_SIZE_BYTES`
computed in `uint32_t` arithmetic (`PAGE_SIZE_BYTES = 256`). -/
def pagesFor (g : Group) (capacity : Nat) : Nat :=
  ((groupBytes g capacity + 255) % 2 ^ 32) / 256

/-- Erase datasheet reference of a group (`typ_4k/32k/64k_ms` per group,
`NAN` i.e. `none` elsewhere), as selected inside the erase loops. -/
def eraseRef (g : Group) (r : DbRow) : Option ℚ :=
  match g with
  | .g4K => some r.typ_4k_ms
  | .g32K => some r.typ_32k_ms
  | .g64K => some r.typ_64k_ms
  | _ => none

/-- One step of the closest-prediction scan of `compute_db_means_closest`:
rows without the relevant field (`pf r = none`) are skipped, and a row
strictly improving the best distance replaces the best prediction. -/
def closestStep (pf : DbRow → Option ℚ) (m : ℚ) (acc : ℚ × Option ℚ) (r : DbRow) :
    ℚ × Option ℚ :=
  match pf r with
  | none => acc
  | some p => if |p - m| < acc.1 then (|p - m|, some p) else acc

/-- Closest-prediction scan over the catalogue in order, starting from the
sentinel distance `1e9` of `compute_db_means_closest`; the second component
is the prediction written to the `db_mean_*` cell (`none` when no row ever
improved on the sentinel, which the C code leaves as `NAN`). -/
def closestPred (pf : DbRow → Option ℚ) (m : ℚ) (rows : List DbRow) : ℚ × Option ℚ :=
  rows.foldl (closestStep pf m) ((10 : ℚ) ^ 9, none)

/-- Read prediction of a row: `read50_MBps * (sck_MHz / 50)` when the
datasheet read speed is present. -/
def readPred (sck : ℚ) (r : DbRow) : Option ℚ :=
  if 0 < r.read50_MBps then some (r.read50_MBps * (sck / 50)) else none

/-- Program prediction of a row for a group: `typ_page_ms * pages` when the
datasheet page-program time is present. -/
def writePred (capacity : Nat) (g : Group) (r : DbRow) : Option ℚ :=
  if 0 < r.typ_page_ms then some (r.typ_page_ms * (pagesFor g capacity : ℚ)) else none

/-- Erase prediction of a row for a group: the group's typical erase time
when present (`ref > 0`). -/
def erasePredF (g : Group) (r : DbRow) : Option ℚ :=
  match eraseRef g r with
  | none => none
  | some ref => if 0 < ref then some ref else none

/-- Embeds the READ section of `compute_db_means_closest` (report.c lines
781-815) for one group: requires `sck_MHz > 0` and a non-empty bucket; a
bucket whose mean is `NAN` (impossible with `n > 0`, but kept for
faithfulness to the float comparisons) yields `NAN`. -/
def db_read (rows : List DbRow) (sck : ℚ) (S : Stats) : Option ℚ :=
  if 0 < sck ∧ 0 < S.n then
    match S.mean with
    | none => none
    | some m => (closestPred (readPred sck) m rows).2
  else none

/-- Embeds the WRITE section of `compute_db_means_closest` (report.c lines
836-867) for one group: skips empty buckets, the WHOLE group at zero
capacity, and a zero page count. -/
def db_write (rows : List DbRow) (capacity : Nat) (g : Group) (S : Stats) : Option ℚ :=
  if 0 < S.n ∧ ¬(g = .gWhole ∧ groupBytes g capacity = 0) ∧ 0 < pagesFor g capacity then
    match S.mean with
    | none => none
    | some m => (closestPred (writePred capacity g) m rows).2
  else none

/-- Embeds the ERASE section of `compute_db_means_closest` (report.c lines
869-899) for one group. -/
def db_erase (rows : List DbRow) (g : Group) (S : Stats) : Option ℚ :=
  if 0 < S.n then
    match S.mean with
    | none => none
    | some m => (closestPred (erasePredF g) m rows).2
  else none

/-- Stats bucket consulted by the matcher for an operation: read uses the
MB/s stats, program and erase the ms/op stats. -/
def statsOf (op : Oper) (A : Agg) (g : Group) : Stats :=
  match op with
  | .read => A.read_s g
  | .prog => A.write_s g
  | .erase => A.erase_s g

/-- The `db_mean_<group>` cell value of one operation column, dispatching
to the three sections of `compute_db_means_closest`.  The by-product
overall read winner index (`out_read_winner_idx`), which no report cell
consumes, is not modelled. -/
def dbCell (op : Oper) (rows : List DbRow) (sck : ℚ) (capacity : Nat) (A : Agg)
    (g : Group) : Option ℚ :=
  match op with
  | .read => db_read rows sck (A.read_s g)
  | .prog => db_write rows capacity g (A.write_s g)
  | .erase => db_erase rows g (A.erase_s g)

/-- Eligibility-and-prediction of a row for an `(operation, group)` cell,
folding in the cell-level guards of `compute_db_means_closest` (the
`sck_MHz > 0` gate for read, the capacity/page gates for program).  This is
the notion "the row carries the relevant field" of the matcher. -/
def predOf (op : Oper) (sck : ℚ) (capacity : Nat) (g : Group) (r : DbRow) : Option ℚ :=
  match op with
  | .read => if 0 < sck then readPred sck r else none
  | .prog =>
    if ¬(g = .gWhole ∧ groupBytes g capacity = 0) ∧ 0 < pagesFor g capacity then
      writePred capacity g r
    else none
  | .erase => erasePredF g r

/-! ## Candidate-cell strings (report.c lines 902-1106) -/

/-- The literal `NA` cell (report.c `NA_STR`). -/
def NAc : List Char := ['N', 'A']

/-- Embeds `strncat(dst, src, cnt)` on byte lists: append at most `cnt`
characters of `src`. -/
def strncatL (dst src : List Char) (cnt : Nat) : List Char := dst ++ src.take cnt

/-- Embeds `append_token` (report.c lines 1082-1099): append a token to a
slash-separated cell of byte capacity `n` (buffer size including the NUL),
with the exact `strncat` truncation behaviour of the C code: a separator is
added only while `len + 1 < n - 1`, and the token is cut to the remaining
room, possibly leaving a partial fragment. -/
def append_token (n : Nat) (dst tok : List Char) : List Char :=
  if tok = [] ∨ n = 0 then dst
  else if dst.length = 0 then strncatL dst tok (n - 1)
  else
    let d1 := if dst.length + 1 < n - 1 then strncatL dst ['/'] (n - 1 - dst.length) else dst
    strncatL d1 tok (n - 1 - d1.length)

/-- Builds a cell by appending a list of tokens in order (the shape of every
candidate-cell loop). -/
def buildToks (n : Nat) (toks : List (List Char)) : List Char :=
  toks.foldl (append_token n) []

/-- Accumulator worker of the `strtok(s, "/")` tokenizer: `acc` holds the
reversed characters of the token being read. -/
def splitSlAux : List Char → List Char → List (List Char)
  | [], acc => if acc = [] then [] else [acc.reverse]
  | c :: r, acc =>
    if c = '/' then
      if acc = [] then splitSlAux r [] else acc.reverse :: splitSlAux r []
    else splitSlAux r (c :: acc)

/-- Embeds `strtok(s, "/")` splitting: maximal runs of non-`/` characters,
empty runs skipped. -/
def splitSl (l : List Char) : List (List Char) := splitSlAux l []

/-- Substring occurrence at offset `i`. -/
def substrAtB (hay needle : List Char) (i : Nat) : Bool :=
  decide ((hay.drop i).take needle.length = needle)

/-- Embeds the `strstr(hay, needle) != NULL` test: the needle occurs as a
contiguous substring of the haystack. -/
def strstrB (hay needle : List Char) : Bool :=
  (List.range (hay.length + 1)).any (substrAtB hay needle)

/-- Slash-joined form of a token list: the canonical shape of an
untruncated candidate cell. -/
def intercalSl : List (List Char) → List Char
  | [] => []
  | [t] => t
  | t :: u :: r => t ++ '/' :: intercalSl (u :: r)

/-- Canonical shape of a candidate cell: the slash-joined tokens, followed
(when truncation cut a token) by a slash and the retained fragment. -/
def renderCell (toks : List (List Char)) (frag : Option (List Char)) : List Char :=
  match toks, frag with
  | [], none => []
  | [], some f => f
  | [t], none => t
  | t :: u :: r, fr => t ++ '/' :: renderCell (u :: r) fr
  | [t], some f => t ++ '/' :: renderCell [] (some f)

/-- Embeds one candidate cell of `build_possible_chips_for_all_groups`
(report.c lines 909-1007): for a non-`NAN` `db_mean` value, every catalogue
row in order whose relevant field is present, whose JEDEC is non-empty and
whose prediction is `float_almost_equal` to the cell value appends its
JEDEC; an empty result becomes the literal `NA`. -/
def possCell (op : Oper) (rows : List DbRow) (sck : ℚ) (capacity : Nat) (g : Group)
    (dbo : Option ℚ) : List Char :=
  let s : List Char :=
    match dbo with
    | none => []
    | some v =>
      match op with
      | .read =>
        if 0 < sck then
          rows.foldl (fun acc r =>
            if 0 < r.read50_MBps ∧ r.jedec ≠ [] ∧
                float_almost_equal (r.read50_MBps * (sck / 50)) v then
              append_token 256 acc r.jedec
            else acc) []
        else []
      | .prog =>
        let bytes := groupBytes g capacity
        if ¬(g = .gWhole ∧ bytes = 0) ∧ 0 < bytes ∧ 0 < pagesFor g capacity then
          rows.foldl (fun acc r =>
            if 0 < r.typ_page_ms ∧ r.jedec ≠ [] ∧
                float_almost_equal (r.typ_page_ms * (pagesFor g capacity : ℚ)) v then
              append_token 256 acc r.jedec
            else acc) []
        else []
      | .erase =>
        rows.foldl (fun acc r =>
          match eraseRef g r with
          | none => acc
          | some ref =>
            if r.jedec ≠ [] ∧ 0 < ref ∧ float_almost_equal ref v then
              append_token 256 acc r.jedec
            else acc) []
  if s = [] then NAc else s

/-- Candidate condition of a row for an `(operation, group)` cell with
value `v`: the membership side of the per-cell candidate list. -/
def candB (op : Oper) (sck : ℚ) (capacity : Nat) (g : Group) (v : ℚ) (r : DbRow) :
    Bool :=
  decide (r.jedec ≠ []) &&
    match op with
    | .read =>
      decide (0 < r.read50_MBps) && float_almost_equal (r.read50_MBps * (sck / 50)) v
    | .prog =>
      decide (0 < r.typ_page_ms) &&
        float_almost_equal (r.typ_page_ms * (pagesFor g capacity : ℚ)) v
    | .erase =>
      match eraseRef g r with
      | none => false
      | some ref => decide (0 < ref) && float_almost_equal ref v

/-! ## Candidate intersection (report.c lines 1013-1077) -/

/-- First group whose candidate cell is non-empty and not `NA` (the seed of
`conclude_possible_chips_across_groups`). -/
def firstNonNA (poss : Group → List Char) : Option Group :=
  groupList.find? (fun g => decide (poss g ≠ [] ∧ poss g ≠ NAc))

/-- In-all test of `conclude_possible_chips_across_groups`: the token is
retained iff every other group either does not constrain (empty or `NA`
cell) or contains the token as a substring (`strstr`). -/
def inAllB (poss : Group → List Char) (f : Group) (tok : List Char) : Bool :=
  groupList.all fun g =>
    decide (g = f ∨ poss g = [] ∨ poss g = NAc ∨ strstrB (poss g) tok = true)

/-- Embeds `conclude_possible_chips_across_groups` (report.c lines
1015-1077): tokenise the seed cell with `strtok(_, "/")`, strip leading
spaces, keep the tokens present in all constraining groups, and emit `NA`
when no seed exists or nothing survives. -/
def conclude (poss : Group → List Char) : List Char :=
  match firstNonNA poss with
  | none => NAc
  | some f =>
    let out := (splitSl (poss f)).foldl (fun acc tk0 =>
      let tk := tk0.dropWhile (· = ' ')
      if tk ≠ [] ∧ inAllB poss f tk then append_token 1024 acc tk else acc) []
    if out = [] then NAc else out

/-! ## Final guess scoring (report.c lines 1108-1209) -/

/-- Embeds `norm_diff` (report.c lines 1109-1117): relative error capped at
3, with the cap as penalty when either value is absent/non-positive. -/
def norm_diff (meas ref : ℚ) : ℚ :=
  if ¬0 < meas ∨ ¬0 < ref then 3 else min (|meas - ref| / ref) 3

/-- The `norm_diff` call on a bucket mean that may be `NAN`: the float
comparison `meas > 0` is false on NaN, so the capped penalty applies. -/
def norm_diffO (meas : Option ℚ) (ref : ℚ) : ℚ :=
  match meas with
  | none => 3
  | some m => norm_diff m ref

/-- Score and used-metric count of one catalogue row in
`pick_best_candidate` (report.c lines 1126-1202): read, write and erase
sections, each iterating the groups in order. -/
def rowScore (A : Agg) (capacity : Nat) (r : DbRow) : ℚ × Nat :=
  let s0 : ℚ × Nat := (0, 0)
  let s1 :=
    if 0 < r.read50_MBps ∧ 0 < A.sck then
      groupList.foldl (fun a g =>
        if 0 < (A.read_s g).n then
          (a.1 + norm_diffO (A.read_s g).mean (r.read50_MBps * (A.sck / 50)), a.2 + 1)
        else a) s0
    else s0
  let s2 :=
    if 0 < r.typ_page_ms then
      groupList.foldl (fun a g =>
        if 0 < (A.write_s g).n then
          if ¬(g = .gWhole ∧ groupBytes g capacity = 0) ∧ 0 < pagesFor g capacity then
            (a.1 + norm_diffO (A.write_s g).mean
              (r.typ_page_ms * (pagesFor g capacity : ℚ)), a.2 + 1)
          else a
        else a) s1
    else s1
  groupList.foldl (fun a g =>
    if 0 < (A.erase_s g).n then
      match eraseRef g r with
      | none => a
      | some ref =>
        if 0 < ref then (a.1 + norm_diffO (A.erase_s g).mean ref, a.2 + 1) else a
    else a) s2

/-- Embeds `pick_best_candidate` (report.c lines 1119-1209): rows with no
scoreable metric are skipped, a JEDEC match multiplies the score by 0.25,
and a strictly lower score (starting from the sentinel `1e9`) wins, so ties
keep the earlier catalogue row.  Returns the best score and row. -/
def pick_best_candidate (rows : List DbRow) (A : Agg) (jed : List Char) (capacity : Nat) :
    ℚ × Option DbRow :=
  rows.foldl (fun acc r =>
    let sc := rowScore A capacity r
    if sc.2 = 0 then acc
    else
      let s := if jed ≠ [] ∧ r.jedec ≠ [] ∧ jed = r.jedec then sc.1 * (1/4) else sc.1
      if s < acc.1 then (s, some r) else acc) ((10 : ℚ) ^ 9, none)

/-- The final-guess block of the report: JEDEC, model and company cells and
the score cell (`none` is the literal `NA`). -/
structure FinalGuess where
  j : List Char
  m : String
  c : String
  score : Option ℚ
  deriving DecidableEq, Repr

/-- Embeds the `any_meas` scan of `write_report_csv` (report.c lines
1350-1353). -/
def any_meas (A : Agg) : Bool :=
  groupList.any fun g =>
    decide (0 < (A.read_s g).n ∨ 0 < (A.write_s g).n ∨ 0 < (A.erase_s g).n)

/-- Embeds the JEDEC lookup of `report_generate_csv` (report.c lines
1529-1540): the first catalogue row whose normalised JEDEC equals the
observed one. -/
def findMatchRow (rows : List DbRow) (jed : List Char) : Option DbRow :=
  if jed ≠ [] then rows.find? (fun r => decide (r.jedec ≠ [] ∧ r.jedec = jed)) else none

/-- Embeds the final-guess selection of `write_report_csv` (report.c lines
1343-1414): with no measured bucket at all, a known JEDEC concludes on the
JEDEC alone (model/company from the matched row when one exists, the
literal `NA` otherwise, score `0.000`); with measurements the best-scoring
row wins; otherwise a known JEDEC falls back with an absent score, and
failing everything the literal `undecided` is emitted. -/
def finalGuess (rows : List DbRow) (A : Agg) (match_row : Option DbRow)
    (jed : List Char) (capacity : Nat) : FinalGuess :=
  let best := pick_best_candidate rows A jed capacity
  if any_meas A = false then
    if jed ≠ [] then
      { j := jed
        m := match match_row with
             | some r => if r.chip_model ≠ "" then r.chip_model else "NA"
             | none => "NA"
        c := match match_row with
             | some r => if r.company ≠ "" then r.company else "NA"
             | none => "NA"
        score := some 0 }
    else ⟨"undecided".toList, "undecided", "undecided", none⟩
  else
    match best.2 with
    | some r =>
      { j := if r.jedec ≠ [] then r.jedec else NAc
        m := if r.chip_model ≠ "" then r.chip_model else "NA"
        c := if r.company ≠ "" then r.company else "NA"
        score := some best.1 }
    | none =>
      if jed ≠ [] then
        { j := jed
          m := match match_row with
               | some r => if r.chip_model ≠ "" then r.chip_model else "NA"
               | none => "NA"
          c := match match_row with
               | some r => if r.company ≠ "" then r.company else "NA"
               | none => "NA"
          score := none }
      else ⟨"undecided".toList, "undecided", "undecided", none⟩

/-! ## Cell formatting (report.c lines 590-729, 1211-1304) -/

/-- Formatted content of a numeric report cell: the literal `NA`, a value
printed with a fixed number of decimals, the square root of a value printed
with a fixed number of decimals (stddev cells, whose stored value here is
the variance), or a decimal integer. -/
inductive Cell : Type where
  | na
  | fx (decimals : Nat) (v : ℚ)
  | sqrtFx (decimals : Nat) (vsq : ℚ)
  | int (v : Int)
  deriving DecidableEq, Repr

/-- Embeds `f3_or_na` (report.c lines 643-652): `NA` on NaN, else `%.3f`. -/
def f3_or_na (v : Option ℚ) : Cell :=
  match v with
  | none => .na
  | some q => .fx 3 q

/-- Embeds `f2_or_na` (report.c lines 654-663): `NA` on NaN, else `%.2f`. -/
def f2_or_na (v : Option ℚ) : Cell :=
  match v with
  | none => .na
  | some q => .fx 2 q

/-- Embeds `i_or_na` (report.c lines 665-676): `NA` on a non-positive
count, else `%d`. -/
def i_or_na (v : Int) : Cell :=
  if v ≤ 0 then .na else .int v

/-- Embeds `f_auto_std_or_na` (report.c lines 688-704): `NA` on NaN, `%.6f`
when the magnitude is strictly between 0 and `1e-3`, else `%.3f`. -/
def f_auto_std_or_na (v : Option ℚ) : Cell :=
  match v with
  | none => .na
  | some q => if 0 < |q| ∧ |q| < 1/1000 then .fx 6 q else .fx 3 q

/-- The `f_auto_std_or_na` formatting applied to a stddev value stored as
its square (the variance): `sqrtf` of a negative variance would be NaN
(`NA`), and `0 < |sqrt vsq| < 1e-3` is exactly `0 < vsq < 1e-6`. -/
def f_auto_std_sqrt (vsq : Option ℚ) : Cell :=
  match vsq with
  | none => .na
  | some q =>
    if q < 0 then .na
    else if 0 < q ∧ q < 1/1000000 then .sqrtFx 6 q else .sqrtFx 3 q

/-- Embeds `group_suffix` (report.c lines 86-105). -/
def group_suffix (g : Group) : String :=
  match g with
  | .g1B => "1B"
  | .g256B => "256B"
  | .g4K => "4096B"
  | .g32K => "32768B"
  | .g64K => "65536B"
  | .gWhole => "WHOLE"

/-- Embeds `write_summary_ms_for_group` (report.c lines 1248-1304): the
eight summary rows of one size group, as `(title, read, write, erase)`
formatted cells.  Every ms statistic row, not only stddev, goes through
`write_three_cols_f_std`, i.e. the auto six-decimal formatter. -/
def write_summary_ms_for_group (suffix : String) (Sr Sw Se : Stats) :
    List (String × Cell × Cell × Cell) :=
  [ ("n_" ++ suffix, i_or_na (Sr.n : Int), i_or_na (Sw.n : Int), i_or_na (Se.n : Int)),
    ("avg_" ++ suffix ++ "_ms",
      f_auto_std_or_na Sr.mean, f_auto_std_or_na Sw.mean, f_auto_std_or_na Se.mean),
    ("p25_" ++ suffix ++ "_ms",
      f_auto_std_or_na Sr.p25, f_auto_std_or_na Sw.p25, f_auto_std_or_na Se.p25),
    ("p50_" ++ suffix ++ "_ms",
      f_auto_std_or_na Sr.p50, f_auto_std_or_na Sw.p50, f_auto_std_or_na Se.p50),
    ("p75_" ++ suffix ++ "_ms",
      f_auto_std_or_na Sr.p75, f_auto_std_or_na Sw.p75, f_auto_std_or_na Se.p75),
    ("min_" ++ suffix ++ "_ms",
      f_auto_std_or_na Sr.minv, f_auto_std_or_na Sw.minv, f_auto_std_or_na Se.minv),
    ("max_" ++ suffix ++ "_ms",
      f_auto_std_or_na Sr.maxv, f_auto_std_or_na Sw.maxv, f_auto_std_or_na Se.maxv),
    ("stddev_" ++ suffix ++ "_ms",
      f_auto_std_sqrt Sr.stddevSq, f_auto_std_sqrt Sw.stddevSq,
      f_auto_std_sqrt Se.stddevSq) ]

/-- The `db_mean_<group>` report row (report.c lines 1458-1463), written
with `write_three_cols_f`, i.e. three decimals or `NA`. -/
def dbMeanRow (rows : List DbRow) (sck : ℚ) (capacity : Nat) (A : Agg) (g : Group) :
    String × Cell × Cell × Cell :=
  ("db_mean_" ++ group_suffix g,
    f3_or_na (dbCell .read rows sck capacity A g),
    f3_or_na (dbCell .prog rows sck capacity A g),
    f3_or_na (dbCell .erase rows sck capacity A g))

/-- The `spi_sck_MHz` cell (report.c lines 1439-1441): two decimals, `NA`
when the clock is unknown. -/
def spiSckCell (sck : ℚ) : Cell :=
  f2_or_na (if 0 < sck then some sck else none)

/-- The `capacity_mbit` identity cell of `fill_identity_fields` (report.c
lines 608-626): the integer capacity of the JEDEC-matched row, `NA`
otherwise. -/
def capacityMbitCell (match_row : Option DbRow) : Cell :=
  match match_row with
  | some r =>
    if r.jedec ≠ [] then (if 0 < r.capacity_mbit then .int r.capacity_mbit else .na)
    else .na
  | none => .na

/-! ## Specification-side definitions used by the theorems -/

/-- Well-formedness of one results record for the field-sensitivity
property: at least six cells, none empty (so `strtok` field indices agree
with CSV field indices). -/
def wfLine (line : List String) : Prop :=
  6 ≤ line.length ∧ ∀ c ∈ line, c ≠ ""

/-- Agreement of two results records on the fields the engine reads
(operation, size, elapsed — fields 1, 2, 4). -/
def agreeKey (l1 l2 : List String) : Prop :=
  l1.getD 1 "" = l2.getD 1 "" ∧ l1.getD 2 "" = l2.getD 2 "" ∧ l1.getD 4 "" = l2.getD 4 ""

/-- Formatting discipline of a report cell: six decimals only on an
auto-formatted cell whose magnitude lies strictly between 0 and `1e-3`
(for a stddev cell, stored as variance, between 0 and `1e-6`); otherwise
three decimals, an integer, or `NA`. -/
def sixOnlySmall (c : Cell) : Prop :=
  match c with
  | .na => True
  | .int _ => True
  | .fx d v => d = 3 ∨ (d = 6 ∧ 0 < |v| ∧ |v| < 1/1000)
  | .sqrtFx d v => d = 3 ∨ (d = 6 ∧ 0 < v ∧ v < 1/1000000)

/-- Well-formedness of a catalogue row's JEDEC: absent, or a normalised
six-character token free of the cell separator `/` and of spaces (hex
digits in particular). -/
def rowWF (r : DbRow) : Prop :=
  r.jedec = [] ∨ (r.jedec.length = 6 ∧ ∀ c ∈ r.jedec, c ≠ '/' ∧ c ≠ ' ')

instance (r : DbRow) : Decidable (rowWF r) :=
  decidable_of_iff
    (r.jedec = [] ∨ (r.jedec.length = 6 ∧ ∀ c ∈ r.jedec, c ≠ '/' ∧ c ≠ ' ')) Iff.rfl

/-- Serialised size a token list occupies in a cell: one separator plus the
token length, per token. -/
def sumTok : List (List Char) → Nat
  | [] => 0
  | t :: r => 1 + t.length + sumTok r

/-- Tail of a slash-joined cell: each token preceded by its separator. -/
def tailJoin : List (List Char) → List Char
  | [] => []
  | t :: r => '/' :: (t ++ tailJoin r)

/-- Candidate cells described by their token lists: group `g` holds the
literal `NA` when `isna g`, else the slash-join of `T g` with an optional
truncated fragment `fr g`. -/
def mkPoss (T : Group → List (List Char)) (fr : Group → Option (List Char))
    (isna : Group → Bool) : Group → List Char :=
  fun g => if isna g then NAc else renderCell (T g) (fr g)

/-- JEDECs, in catalogue order, of the rows satisfying the candidate
condition of an `(operation, group)` cell with value `v`. -/
def candList (op : Oper) (sck : ℚ) (capacity : Nat) (g : Group) (v : ℚ)
    (rows : List DbRow) : List (List Char) :=
  (rows.filter (candB op sck capacity g v)).map DbRow.jedec

/-- Erases the JEDEC of a catalogue row, keeping its timing fields: used to
state that closest-winner selection never consults the JEDEC. -/
def eraseJedec (r : DbRow) : DbRow := { r with jedec := [] }

/-- Token-retention test of `conclude` on a cell token (spaces already
absent in well-formed cells). -/
def keepTok (poss : Group → List Char) (f : Group) (tk : List Char) : Bool :=
  decide (tk.dropWhile (· = ' ') ≠ []) &&
    inAllB poss f (tk.dropWhile (· = ' '))

/-- Decimal digit character. -/
def dig (n : Nat) : Char := Char.ofNat ('0'.toNat + n)

/-- Catalogue row `i` of the 37-row tie catalogue used to exhibit the
256-byte truncation of a candidate cell: all rows share the typical 4K
erase time 45 ms and carry pairwise distinct six-hex JEDECs. -/
def exRow37 (i : Nat) : DbRow :=
  { jedec := ['A', 'A', 'A', 'A', dig (i / 10), dig (i % 10)]
    chip_model := ""
    company := ""
    family := ""
    capacity_mbit := -1
    typ_4k_ms := 45
    typ_32k_ms := -1
    typ_64k_ms := -1
    typ_page_ms := -1
    read50_MBps := -1 }

/-- The 37-row tie catalogue. -/
def exRows37 : List DbRow := (List.range 37).map exRow37

/-- A catalogue row whose page-program prediction is astronomically far
from any plausible measurement, exhibiting the `1e9` sentinel distance of
`compute_db_means_closest`. -/
def exRowBig : DbRow :=
  { jedec := []
    chip_model := ""
    company := ""
    family := ""
    capacity_mbit := -1
    typ_4k_ms := -1
    typ_32k_ms := -1
    typ_64k_ms := -1
    typ_page_ms := 2 * 10 ^ 9
    read50_MBps := -1 }

/-- A one-row catalogue entry with JEDEC `BF2641`, model `X`, company `Y`,
used to instantiate the final-guess and candidate theorems. -/
def exRowBF : DbRow :=
  { jedec := ['B', 'F', '2', '6', '4', '1']
    chip_model := "X"
    company := "Y"
    family := ""
    capacity_mbit := 2
    typ_4k_ms := 45
    typ_32k_ms := -1
    typ_64k_ms := -1
    typ_page_ms := -1
    read50_MBps := 5 }

/-- Concrete candidate-token table exercising the conclusion intersection:
the 1-byte cell offers two JEDECs, the 4K cell only one of them. -/
def c5T : Group → List (List Char)
  | Group.g1B => [['A', 'B', 'C', 'D', 'E', 'F'], ['1', '2', '3', '4', '5', '6']]
  | Group.g4K => [['1', '2', '3', '4', '5', '6']]
  | _ => [['A', 'A', 'A', 'A', 'A', 'A']]

/-- No cell of the concrete table carries a truncated fragment. -/
def c5fr : Group → Option (List Char) := fun _ => none

/-- Only the 1-byte and 4K cells of the concrete table are non-NA. -/
def c5isna : Group → Bool
  | Group.g1B => false
  | Group.g4K => false
  | _ => true

/-! ## Helper lemmas -/

theorem load_database_eq_take (idx : ColIdx) :
    ∀ (m : Nat) (lines : List (List String)),
      load_database idx m lines =
        ((lines.filter fun l => dbParseable l).take m).map (parseDbRow idx)
  | _, [] => by simp [load_database]
  | 0, _ :: _ => by simp [load_database]
  | m + 1, line :: rest => by
    by_cases h : dbParseable line
    · simp [load_database, h, load_database_eq_take idx m rest]
    · simp [load_database, h, load_database_eq_take idx (m + 1) rest]

theorem if_lt_eq_min (a b : ℚ) : (if b < a then b else a) = min a b := by
  split_ifs with h
  · exact (min_eq_right h.le).symm
  · exact (min_eq_left (not_lt.mp h)).symm

theorem if_lt_eq_max (a b : ℚ) : (if a < b then b else a) = max a b := by
  split_ifs with h
  · exact (max_eq_right h.le).symm
  · exact (max_eq_left (not_lt.mp h)).symm

theorem foldl_min_push (l : List ℚ) : ∀ a b : ℚ, l.foldl min (min a b) = min a (l.foldl min b) := by
  induction l with
  | nil => intro a b; rfl
  | cons c t ih =>
    intro a b
    simp only [List.foldl_cons, min_assoc, ih]

theorem foldl_max_push (l : List ℚ) : ∀ a b : ℚ, l.foldl max (max a b) = max a (l.foldl max b) := by
  induction l with
  | nil => intro a b; rfl
  | cons c t ih =>
    intro a b
    simp only [List.foldl_cons, max_assoc, ih]

theorem foldl_min_le (l : List ℚ) : ∀ (a c : ℚ), c = a ∨ c ∈ l → l.foldl min a ≤ c := by
  induction l with
  | nil =>
    rintro a c (rfl | hc)
    · exact le_refl _
    · simp at hc
  | cons b t ih =>
    intro a c hc
    simp only [List.foldl_cons]
    rcases hc with heq | hct
    · rw [heq]
      exact le_trans (ih (min a b) (min a b) (Or.inl rfl)) (min_le_left _ _)
    · rcases List.mem_cons.mp hct with heq | hct'
      · rw [heq]
        exact le_trans (ih (min a b) (min a b) (Or.inl rfl)) (min_le_right _ _)
      · exact ih (min a b) c (Or.inr hct')

theorem foldl_max_ge (l : List ℚ) : ∀ (a c : ℚ), c = a ∨ c ∈ l → c ≤ l.foldl max a := by
  induction l with
  | nil =>
    rintro a c (rfl | hc)
    · exact le_refl _
    · simp at hc
  | cons b t ih =>
    intro a c hc
    simp only [List.foldl_cons]
    rcases hc with heq | hct
    · rw [heq]
      exact le_trans (le_max_left _ _) (ih (max a b) (max a b) (Or.inl rfl))
    · rcases List.mem_cons.mp hct with heq | hct'
      · rw [heq]
        exact le_trans (le_max_right _ _) (ih (max a b) (max a b) (Or.inl rfl))
      · exact ih (max a b) c (Or.inr hct')

theorem foldMin_perm {x y : ℚ} {xs ys : List ℚ} (h : (x :: xs).Perm (y :: ys)) :
    foldMin x xs = foldMin y ys := by
  have hmin : ∀ (z : ℚ) (l : List ℚ), foldMin z l = l.foldl min z := by
    intro z l
    unfold foldMin
    congr 1
    funext a b
    exact if_lt_eq_min a b
  have key : ∀ (z : ℚ) (zs : List ℚ), zs.foldl min z = (z :: zs).foldl min z := by
    intro z zs
    simp [min_self]
  rw [hmin, hmin, key x xs, key y ys, h.foldl_eq]
  have hx : x ∈ y :: ys := h.mem_iff.mp (List.mem_cons_self x xs)
  have hle : (y :: ys).foldl min y ≤ x := by
    rcases List.mem_cons.mp hx with rfl | hx'
    · exact foldl_min_le (x :: ys) x x (Or.inr (List.mem_cons_self x ys))
    · exact foldl_min_le (y :: ys) y x (Or.inr (List.mem_cons.mpr (Or.inr hx')))
  calc (y :: ys).foldl min x = ys.foldl min (min x y) := by simp [min_comm]
    _ = min x (ys.foldl min y) := foldl_min_push ys x y
    _ = min x ((y :: ys).foldl min y) := by rw [← key y ys]
    _ = (y :: ys).foldl min y := min_eq_right hle

theorem foldMax_perm {x y : ℚ} {xs ys : List ℚ} (h : (x :: xs).Perm (y :: ys)) :
    foldMax x xs = foldMax y ys := by
  have hmax : ∀ (z : ℚ) (l : List ℚ), foldMax z l = l.foldl max z := by
    intro z l
    unfold foldMax
    congr 1
    funext a b
    exact if_lt_eq_max a b
  have key : ∀ (z : ℚ) (zs : List ℚ), zs.foldl max z = (z :: zs).foldl max z := by
    intro z zs
    simp [max_self]
  rw [hmax, hmax, key x xs, key y ys, h.foldl_eq]
  have hx : x ∈ y :: ys := h.mem_iff.mp (List.mem_cons_self x xs)
  have hle : x ≤ (y :: ys).foldl max y := by
    rcases List.mem_cons.mp hx with rfl | hx'
    · exact foldl_max_ge (x :: ys) x x (Or.inr (List.mem_cons_self x ys))
    · exact foldl_max_ge (y :: ys) y x (Or.inr (List.mem_cons.mpr (Or.inr hx')))
  calc (y :: ys).foldl max x = ys.foldl max (max x y) := by simp [max_comm]
    _ = max x (ys.foldl max y) := foldl_max_push ys x y
    _ = max x ((y :: ys).foldl max y) := by rw [← key y ys]
    _ = (y :: ys).foldl max y := max_eq_right hle

theorem sortAsc_eq_of_perm {v1 v2 : List ℚ} (h : v1.Perm v2) : sortAsc v1 = sortAsc v2 :=
  List.eq_of_perm_of_sorted
    ((List.perm_insertionSort _ v1).trans (h.trans (List.perm_insertionSort _ v2).symm))
    (List.sorted_insertionSort _ v1) (List.sorted_insertionSort _ v2)

theorem calc_stats_perm {v1 v2 : List ℚ} (h : v1.Perm v2) :
    calc_stats_from_vec v1 = calc_stats_from_vec v2 := by
  cases v1 with
  | nil =>
    rw [h.nil_eq]
  | cons x xs =>
    cases v2 with
    | nil => exact absurd h.symm.nil_eq (by simp)
    | cons y ys =>
      have hlen := h.length_eq
      have hsum := h.sum_eq
      have hsort := sortAsc_eq_of_perm h
      have hmean : (x :: xs).sum / (((x :: xs).length : Nat) : ℚ) =
          (y :: ys).sum / (((y :: ys).length : Nat) : ℚ) := by
        rw [hsum, hlen]
      simp only [calc_stats_from_vec, Stats.mk.injEq]
      refine ⟨hlen, by rw [hmean], by rw [hsort], by rw [hsort], by rw [hsort],
        congrArg some (foldMin_perm h), congrArg some (foldMax_perm h), ?_⟩
      rw [hmean, hlen,
        (h.map fun a => (a - (y :: ys).sum / (((y :: ys).length : Nat) : ℚ)) ^ 2).sum_eq]

/-! ## Claim theorems -/

/-- C3: the aggregation pipeline is order-insensitive over samples — for
every permutation of the results stream, every `(operation, size-group)`
bucket keeps the same n, mean, p25, p50, p75, min, max and variance (hence
the same stddev, which is its square root), the read-latency buckets
included, and the mean read latency is unchanged; i.e. the whole aggregate
state is equal. -/
theorem c3_aggregates_perm_invariant (sck : ℚ) (capacity_bytes : Nat)
    {lines1 lines2 : List (List String)} (h : lines1.Perm lines2) :
    collect_aggregates sck capacity_bytes lines1 =
      collect_aggregates sck capacity_bytes lines2 := by
  have hvec : ∀ k g, (vecOf capacity_bytes lines1 k g).Perm (vecOf capacity_bytes lines2 k g) :=
    fun k g => h.filterMap _
  simp only [collect_aggregates, Agg.mk.injEq]
  refine ⟨trivial, ?_, ?_, ?_, ?_, ?_⟩ <;> funext g
  · exact calc_stats_perm (hvec .readMB g)
  · exact calc_stats_perm (hvec .writeMs g)
  · exact calc_stats_perm (hvec .eraseMs g)
  · exact calc_stats_perm (hvec .readLat g)
  · have hp := hvec .readUs g
    by_cases h1 : vecOf capacity_bytes lines1 .readUs g = []
    · have h2 : vecOf capacity_bytes lines2 .readUs g = [] := (h1 ▸ hp).nil_eq.symm
      simp [h1, h2]
    · have h2 : vecOf capacity_bytes lines2 .readUs g ≠ [] := by
        intro h2
        exact h1 (h2 ▸ hp.symm).nil_eq.symm
      simp only [h1, h2, if_false, hp.sum_eq, hp.length_eq]

theorem c3_witness :
    ([["a", "read", "4096", "0", "800", "1"], ["b", "erase", "4096", "0", "46000", "0"]] :
        List (List String)).Perm
      [["b", "erase", "4096", "0", "46000", "0"], ["a", "read", "4096", "0", "800", "1"]] ∧
    collect_aggregates 10 0 [["a", "read", "4096", "0", "800", "1"],
        ["b", "erase", "4096", "0", "46000", "0"]] =
      collect_aggregates 10 0 [["b", "erase", "4096", "0", "46000", "0"],
        ["a", "read", "4096", "0", "800", "1"]] :=
  ⟨List.Perm.swap _ _ _, c3_aggregates_perm_invariant 10 0 (List.Perm.swap _ _ _)⟩

theorem getD_take16 (l : List String) (i : Nat) (hi : i < 16) :
    (l.take 16).getD i "" = l.getD i "" := by
  simp [List.getD_eq_getElem?_getD, List.getElem?_take_of_lt hi]

theorem lineFields_of_wf {line : List String} (hw : wfLine line) :
    lineFields line = line.take 16 := by
  unfold lineFields
  congr 1
  exact List.filter_eq_self.mpr fun a ha => decide_eq_true (hw.2 a ha)

theorem lineVal_congr (cap : Nat) {l1 l2 : List String} (h1 : wfLine l1) (h2 : wfLine l2)
    (ha : agreeKey l1 l2) (k : Vek) (g : Group) : lineVal cap l1 k g = lineVal cap l2 k g := by
  have hf1 := lineFields_of_wf h1
  have hf2 := lineFields_of_wf h2
  have e1 : (l1.take 16).getD 1 "" = (l2.take 16).getD 1 "" := by
    rw [getD_take16 _ 1 (by omega), getD_take16 _ 1 (by omega), ha.1]
  have e2 : (l1.take 16).getD 2 "" = (l2.take 16).getD 2 "" := by
    rw [getD_take16 _ 2 (by omega), getD_take16 _ 2 (by omega), ha.2.1]
  have e4 : (l1.take 16).getD 4 "" = (l2.take 16).getD 4 "" := by
    rw [getD_take16 _ 4 (by omega), getD_take16 _ 4 (by omega), ha.2.2]
  have s1 : ¬(l1.take 16).length < 6 := by
    rw [List.length_take]
    have := h1.1
    omega
  have s2 : ¬(l2.take 16).length < 6 := by
    rw [List.length_take]
    have := h2.1
    omega
  simp only [lineVal, hf1, hf2, e1, e2, e4, s1, s2]

theorem vecOf_congr {lines1 lines2 : List (List String)}
    (hf : List.Forall₂ (fun a b => wfLine a ∧ wfLine b ∧ agreeKey a b) lines1 lines2)
    (cap : Nat) (k : Vek) (g : Group) : vecOf cap lines1 k g = vecOf cap lines2 k g := by
  induction hf with
  | nil => rfl
  | cons hab _ ih =>
    simp only [vecOf, List.filterMap_cons] at ih ⊢
    rw [lineVal_congr cap hab.1 hab.2.1 hab.2.2 k g, ih]

/-- C8 (amended): two results streams whose corresponding records each have
at least six fields, all non-empty, and agree on fields 1 (op), 2
(size_bytes) and 4 (elapsed_us), produce identical aggregate state however
the remaining fields (0, 3, 5 and beyond) differ: the ignored fields never
influence any bucket statistic.  (Well-formedness is needed because the C
`strtok` splitting skips empty cells — an empty field shifts all later
field indices — and drops records with fewer than six tokens.) -/
theorem c8_ignored_fields_no_influence (sck : ℚ) (cap : Nat)
    {lines1 lines2 : List (List String)}
    (hf : List.Forall₂ (fun a b => wfLine a ∧ wfLine b ∧ agreeKey a b) lines1 lines2) :
    collect_aggregates sck cap lines1 = collect_aggregates sck cap lines2 := by
  simp only [collect_aggregates, Agg.mk.injEq]
  refine ⟨trivial, ?_, ?_, ?_, ?_, ?_⟩ <;> funext g
  · exact congrArg calc_stats_from_vec (vecOf_congr hf cap .readMB g)
  · exact congrArg calc_stats_from_vec (vecOf_congr hf cap .writeMs g)
  · exact congrArg calc_stats_from_vec (vecOf_congr hf cap .eraseMs g)
  · exact congrArg calc_stats_from_vec (vecOf_congr hf cap .readLat g)
  · rw [vecOf_congr hf cap .readUs g]

theorem c8_witness :
    List.Forall₂ (fun a b => wfLine a ∧ wfLine b ∧ agreeKey a b)
      [["id", "write", "256", "0xAA", "1000", "7", "x"]]
      [["zz", "write", "256", "0xBB", "1000", "9"]] ∧
    collect_aggregates 0 0 [["id", "write", "256", "0xAA", "1000", "7", "x"]] =
      collect_aggregates 0 0 [["zz", "write", "256", "0xBB", "1000", "9"]] := by
  have hf : List.Forall₂ (fun a b => wfLine a ∧ wfLine b ∧ agreeKey a b)
      [["id", "write", "256", "0xAA", "1000", "7", "x"]]
      [["zz", "write", "256", "0xBB", "1000", "9"]] := by
    refine List.Forall₂.cons ⟨⟨by decide, by decide⟩, ⟨by decide, by decide⟩, ?_⟩ List.Forall₂.nil
    exact ⟨rfl, rfl, rfl⟩
  exact ⟨hf, c8_ignored_fields_no_influence 0 0 hf⟩

theorem c8_counterexample :
    (["id", "write", "256", "0", "1000", "0"] : List String).getD 1 "" =
        (["", "write", "256", "0", "1000", "0"] : List String).getD 1 "" ∧
    (["id", "write", "256", "0", "1000", "0"] : List String).getD 2 "" =
        (["", "write", "256", "0", "1000", "0"] : List String).getD 2 "" ∧
    (["id", "write", "256", "0", "1000", "0"] : List String).getD 4 "" =
        (["", "write", "256", "0", "1000", "0"] : List String).getD 4 "" ∧
    ((collect_aggregates 0 0 [["id", "write", "256", "0", "1000", "0"]]).write_s .g256B).n = 1 ∧
    ((collect_aggregates 0 0 [["", "write", "256", "0", "1000", "0"]]).write_s .g256B).n = 0 :=
  ⟨rfl, rfl, rfl, by decide, by decide⟩

theorem sixOnlySmall_auto (v : Option ℚ) : sixOnlySmall (f_auto_std_or_na v) := by
  rcases v with - | q
  · trivial
  · simp only [f_auto_std_or_na]
    split_ifs with h
    · exact Or.inr ⟨rfl, h.1, h.2⟩
    · exact Or.inl rfl

theorem sixOnlySmall_sqrt (v : Option ℚ) : sixOnlySmall (f_auto_std_sqrt v) := by
  rcases v with - | q
  · trivial
  · simp only [f_auto_std_sqrt]
    split_ifs with h h2
    · trivial
    · exact Or.inr ⟨rfl, h2.1, h2.2⟩
    · exact Or.inl rfl

theorem sixOnlySmall_int (n : Int) : sixOnlySmall (i_or_na n) := by
  unfold i_or_na
  split_ifs <;> trivial

theorem f3_na_or_three (v : Option ℚ) : f3_or_na v = .na ∨ ∃ q, f3_or_na v = .fx 3 q := by
  rcases v with - | q
  · exact Or.inl rfl
  · exact Or.inr ⟨q, rfl⟩

/-- C6 (amended): in the emitted report, six decimals appear only on the
per-group ms summary statistic cells — and there on every statistic row
(avg, p25, p50, p75, min, max as well as stddev, since all eight rows are
written through the auto formatter), exactly when the cell magnitude lies
strictly between 0 and 1e-3 (for stddev: variance strictly between 0 and
1e-6).  The `n_*` row carries integers (or NA), every `db_mean_*` cell uses
three decimals (or NA), `spi_sck_MHz` uses two decimals (or NA), and
`capacity_mbit` is an integer (or NA). -/
theorem c6_formatting_discipline (suffix : String) (Sr Sw Se : Stats) (rows : List DbRow)
    (sck : ℚ) (capacity : Nat) (A : Agg) (g : Group) (mr : Option DbRow) :
    (∀ row ∈ write_summary_ms_for_group suffix Sr Sw Se,
      sixOnlySmall row.2.1 ∧ sixOnlySmall row.2.2.1 ∧ sixOnlySmall row.2.2.2) ∧
    (write_summary_ms_for_group suffix Sr Sw Se).getD 0 ("", .na, .na, .na) =
      ("n_" ++ suffix, i_or_na (Sr.n : Int), i_or_na (Sw.n : Int), i_or_na (Se.n : Int)) ∧
    ((dbMeanRow rows sck capacity A g).2.1 = .na ∨
      ∃ v, (dbMeanRow rows sck capacity A g).2.1 = .fx 3 v) ∧
    ((dbMeanRow rows sck capacity A g).2.2.1 = .na ∨
      ∃ v, (dbMeanRow rows sck capacity A g).2.2.1 = .fx 3 v) ∧
    ((dbMeanRow rows sck capacity A g).2.2.2 = .na ∨
      ∃ v, (dbMeanRow rows sck capacity A g).2.2.2 = .fx 3 v) ∧
    (spiSckCell sck = .na ∨ ∃ v, spiSckCell sck = .fx 2 v) ∧
    (capacityMbitCell mr = .na ∨ ∃ n, capacityMbitCell mr = .int n) := by
  refine ⟨?_, rfl, f3_na_or_three _, f3_na_or_three _, f3_na_or_three _, ?_, ?_⟩
  · intro row hrow
    simp only [write_summary_ms_for_group, List.mem_cons, List.not_mem_nil, or_false] at hrow
    rcases hrow with rfl | rfl | rfl | rfl | rfl | rfl | rfl | rfl <;>
      exact ⟨by first | exact sixOnlySmall_int _ | exact sixOnlySmall_auto _
                      | exact sixOnlySmall_sqrt _,
             by first | exact sixOnlySmall_int _ | exact sixOnlySmall_auto _
                      | exact sixOnlySmall_sqrt _,
             by first | exact sixOnlySmall_int _ | exact sixOnlySmall_auto _
                      | exact sixOnlySmall_sqrt _⟩
  · unfold spiSckCell
    rcases h : (if 0 < sck then some sck else none) with - | q
    · exact Or.inl rfl
    · exact Or.inr ⟨q, rfl⟩
  · rcases mr with - | r
    · exact Or.inl rfl
    · simp only [capacityMbitCell]
      split_ifs with h1 h2
      · exact Or.inr ⟨r.capacity_mbit, rfl⟩
      · exact Or.inl rfl
      · exact Or.inl rfl

theorem c6_counterexample :
    ((write_summary_ms_for_group "256B"
        ((collect_aggregates 0 0 [["id", "write", "256", "0", "0.5", "0"]]).read_lat_ms .g256B)
        ((collect_aggregates 0 0 [["id", "write", "256", "0", "0.5", "0"]]).write_s .g256B)
        ((collect_aggregates 0 0 [["id", "write", "256", "0", "0.5", "0"]]).erase_s .g256B)).getD 1
        ("", .na, .na, .na)).1 = "avg_256B_ms" ∧
    ((write_summary_ms_for_group "256B"
        ((collect_aggregates 0 0 [["id", "write", "256", "0", "0.5", "0"]]).read_lat_ms .g256B)
        ((collect_aggregates 0 0 [["id", "write", "256", "0", "0.5", "0"]]).write_s .g256B)
        ((collect_aggregates 0 0 [["id", "write", "256", "0", "0.5", "0"]]).erase_s .g256B)).getD 1
        ("", .na, .na, .na)).2.2.1 = Cell.fx 6 (1/2000) :=
  ⟨rfl, by decide⟩

theorem c6_witness :
    (("avg_B_ms", Cell.na, Cell.na, Cell.na) ∈
      write_summary_ms_for_group "B" (calc_stats_from_vec []) (calc_stats_from_vec [])
        (calc_stats_from_vec [])) ∧
    (sixOnlySmall Cell.na ∧ sixOnlySmall Cell.na ∧ sixOnlySmall Cell.na) :=
  ⟨by decide,
    (c6_formatting_discipline "B" (calc_stats_from_vec []) (calc_stats_from_vec [])
      (calc_stats_from_vec []) [] 0 0 (collect_aggregates 0 0 []) .g1B none).1
      ("avg_B_ms", Cell.na, Cell.na, Cell.na) (by decide)⟩

/-- C2 (amended): when no bucket has any samples and the observed JEDEC is
known, the final-guess row reports the observed JEDEC with the matched
catalogue row's model and company (their empty fields falling back to the
literal `NA`) and score `0.000`; when no catalogue row matches the JEDEC,
the model and company cells are the literal `NA` — not `undecided` — the
JEDEC cell is the observed JEDEC and the score is still `0.000`. -/
theorem c2_no_meas_known_jedec (rows : List DbRow) (A : Agg) (jed : List Char)
    (capacity : Nat) (hmeas : any_meas A = false) (hjed : jed ≠ []) :
    finalGuess rows A (findMatchRow rows jed) jed capacity =
      { j := jed
        m := match findMatchRow rows jed with
             | some r => if r.chip_model ≠ "" then r.chip_model else "NA"
             | none => "NA"
        c := match findMatchRow rows jed with
             | some r => if r.company ≠ "" then r.company else "NA"
             | none => "NA"
        score := some 0 } := by
  unfold finalGuess
  rw [hmeas]
  simp [hjed]

theorem c2_witness :
    any_meas (collect_aggregates 0 0 []) = false ∧ ("BF2641".toList : List Char) ≠ [] ∧
    finalGuess [exRowBF] (collect_aggregates 0 0 [])
        (findMatchRow [exRowBF] "BF2641".toList) "BF2641".toList 0 =
      { j := "BF2641".toList, m := "X", c := "Y", score := some 0 } :=
  ⟨by decide, by decide,
    (c2_no_meas_known_jedec [exRowBF] (collect_aggregates 0 0 []) "BF2641".toList 0
      (by decide) (by decide)).trans (by decide)⟩

theorem c2_counterexample :
    any_meas (collect_aggregates 0 0 []) = false ∧
    ("C21F17".toList : List Char) ≠ [] ∧
    findMatchRow [] "C21F17".toList = none ∧
    (finalGuess [] (collect_aggregates 0 0 []) (findMatchRow [] "C21F17".toList)
        "C21F17".toList 0).m = "NA" ∧
    (finalGuess [] (collect_aggregates 0 0 []) (findMatchRow [] "C21F17".toList)
        "C21F17".toList 0).m ≠ "undecided" := by decide

theorem closest_foldl_spec (pf : DbRow → Option ℚ) (m : ℚ) :
    ∀ (l : List DbRow) (d0 : ℚ) (p0 : Option ℚ),
      (l.foldl (closestStep pf m) (d0, p0) = (d0, p0) ∧
        ∀ y ∈ l, ∀ q, pf y = some q → d0 ≤ |q - m|) ∨
      (∃ l1 x l2, l = l1 ++ x :: l2 ∧ ∃ q, pf x = some q ∧
        l.foldl (closestStep pf m) (d0, p0) = (|q - m|, some q) ∧ |q - m| < d0 ∧
        (∀ y ∈ l1, ∀ p, pf y = some p → |q - m| < |p - m| ∨ d0 ≤ |p - m|) ∧
        (∀ y ∈ l, ∀ p, pf y = some p → |q - m| ≤ |p - m|)) := by
  intro l
  induction l with
  | nil =>
    intro d0 p0
    exact Or.inl ⟨rfl, by simp⟩
  | cons r t ih =>
    intro d0 p0
    rw [List.foldl_cons]
    rcases hr : pf r with - | p
    · have hstep : closestStep pf m (d0, p0) r = (d0, p0) := by simp [closestStep, hr]
      rw [hstep]
      rcases ih d0 p0 with ⟨heq, hall⟩ | ⟨l1, x, l2, hsplit, q, hq, heq, hql, hearly, hmin⟩
      · refine Or.inl ⟨heq, ?_⟩
        intro y hy p hp
        rcases List.mem_cons.mp hy with rfl | hyt
        · rw [hr] at hp
          exact absurd hp (by simp)
        · exact hall y hyt p hp
      · refine Or.inr ⟨r :: l1, x, l2, by rw [hsplit, List.cons_append], q, hq, heq, hql, ?_, ?_⟩
        · intro y hy p hp
          rcases List.mem_cons.mp hy with rfl | hyl
          · rw [hr] at hp
            exact absurd hp (by simp)
          · exact hearly y hyl p hp
        · intro y hy p hp
          rcases List.mem_cons.mp hy with rfl | hyt
          · rw [hr] at hp
            exact absurd hp (by simp)
          · exact hmin y hyt p hp
    · by_cases hbetter : |p - m| < d0
      · have hstep : closestStep pf m (d0, p0) r = (|p - m|, some p) := by
          simp [closestStep, hr, hbetter]
        rw [hstep]
        rcases ih (|p - m|) (some p) with ⟨heq, hall⟩ |
          ⟨l1, x, l2, hsplit, q, hq, heq, hql, hearly, hmin⟩
        · refine Or.inr ⟨[], r, t, rfl, p, hr, heq, hbetter, by simp, ?_⟩
          intro y hy pp hpp
          rcases List.mem_cons.mp hy with rfl | hyt
          · rw [hr] at hpp
            obtain rfl := Option.some.inj hpp
            exact le_refl _
          · exact hall y hyt pp hpp
        · refine Or.inr ⟨r :: l1, x, l2, by rw [hsplit, List.cons_append], q, hq, heq,
            lt_trans hql hbetter, ?_, ?_⟩
          · intro y hy pp hpp
            rcases List.mem_cons.mp hy with rfl | hyl
            · rw [hr] at hpp
              obtain rfl := Option.some.inj hpp
              exact Or.inl hql
            · rcases hearly y hyl pp hpp with h | h
              · exact Or.inl h
              · exact Or.inl (lt_of_lt_of_le hql h)
          · intro y hy pp hpp
            rcases List.mem_cons.mp hy with rfl | hyt
            · rw [hr] at hpp
              obtain rfl := Option.some.inj hpp
              exact le_of_lt hql
            · exact hmin y hyt pp hpp
      · have hstep : closestStep pf m (d0, p0) r = (d0, p0) := by
          simp [closestStep, hr, hbetter]
        rw [hstep]
        rcases ih d0 p0 with ⟨heq, hall⟩ | ⟨l1, x, l2, hsplit, q, hq, heq, hql, hearly, hmin⟩
        · refine Or.inl ⟨heq, ?_⟩
          intro y hy pp hpp
          rcases List.mem_cons.mp hy with rfl | hyt
          · rw [hr] at hpp
            obtain rfl := Option.some.inj hpp
            exact not_lt.mp hbetter
          · exact hall y hyt pp hpp
        · refine Or.inr ⟨r :: l1, x, l2, by rw [hsplit, List.cons_append], q, hq, heq, hql, ?_, ?_⟩
          · intro y hy pp hpp
            rcases List.mem_cons.mp hy with rfl | hyl
            · rw [hr] at hpp
              obtain rfl := Option.some.inj hpp
              exact Or.inr (not_lt.mp hbetter)
            · exact hearly y hyl pp hpp
          · intro y hy pp hpp
            rcases List.mem_cons.mp hy with rfl | hyt
            · rw [hr] at hpp
              obtain rfl := Option.some.inj hpp
              exact le_of_lt (lt_of_lt_of_le hql (not_lt.mp hbetter))
            · exact hmin y hyt pp hpp

theorem closestPred_found (pf : DbRow → Option ℚ) (m : ℚ) (rows : List DbRow)
    (hex : ∃ r ∈ rows, ∃ q, pf r = some q ∧ |q - m| < 10 ^ 9) :
    ∃ l1 x l2, rows = l1 ++ x :: l2 ∧ ∃ q, pf x = some q ∧
      (closestPred pf m rows).2 = some q ∧
      (∀ y ∈ rows, ∀ p, pf y = some p → |q - m| ≤ |p - m|) ∧
      (∀ y ∈ l1, ∀ p, pf y = some p → |q - m| < |p - m|) := by
  obtain ⟨r, hrmem, q0, hq0, hlt0⟩ := hex
  rcases closest_foldl_spec pf m rows (10 ^ 9) none with ⟨-, hall⟩ |
    ⟨l1, x, l2, hsplit, q, hq, heq, hql, hearly, hmin⟩
  · exact absurd hlt0 (not_lt.mpr (hall r hrmem q0 hq0))
  · refine ⟨l1, x, l2, hsplit, q, hq, ?_, hmin, ?_⟩
    · rw [closestPred, heq]
    · intro y hy p hp
      rcases hearly y hy p hp with h | h
      · exact h
      · exact lt_of_lt_of_le hql h

/-- C1 (amended): for every `(operation, size-group)` cell whose bucket has
`n > 0` samples and an observed mean, and for which some catalogue row both
carries the relevant field (`read50_MBps` with `sck > 0` for read,
`typ_page_ms` for program with the WHOLE/page guards, the group's typical
erase time for erase) and predicts within the code's sentinel distance
`1e9` of that mean, the emitted `db_mean` value equals the prediction of a
row minimising the absolute difference, ties broken to the earliest
catalogue row; a bucket with `n = 0` yields NA.  (Without the `1e9`
proviso the claim fails: a cell stays NA when every prediction is at least
`1e9` away, see the counterexample.) -/
theorem c1_db_mean_closest (op : Oper) (rows : List DbRow) (sck : ℚ) (capacity : Nat)
    (A : Agg) (g : Group) :
    (∀ m, 0 < (statsOf op A g).n → (statsOf op A g).mean = some m →
      (∃ r ∈ rows, ∃ q, predOf op sck capacity g r = some q ∧ |q - m| < 10 ^ 9) →
      ∃ l1 x l2, rows = l1 ++ x :: l2 ∧ ∃ q, predOf op sck capacity g x = some q ∧
        dbCell op rows sck capacity A g = some q ∧
        (∀ y ∈ rows, ∀ p, predOf op sck capacity g y = some p → |q - m| ≤ |p - m|) ∧
        (∀ y ∈ l1, ∀ p, predOf op sck capacity g y = some p → |q - m| < |p - m|)) ∧
    ((statsOf op A g).n = 0 → dbCell op rows sck capacity A g = none) := by
  constructor
  · intro m hn hm hex
    rcases op with - | - | -
    · -- read
      obtain ⟨r, hrmem, q0, hq0, hlt0⟩ := hex
      have hsck : 0 < sck := by
        by_cases hs : 0 < sck
        · exact hs
        · simp only [predOf] at hq0
          rw [if_neg hs] at hq0
          exact absurd hq0 (by simp)
      have hpe : ∀ y, predOf .read sck capacity g y = readPred sck y := by
        intro y
        simp [predOf, hsck]
      have hdb : dbCell .read rows sck capacity A g = (closestPred (readPred sck) m rows).2 := by
        have hn' : 0 < (A.read_s g).n := hn
        have hm' : (A.read_s g).mean = some m := hm
        simp only [dbCell, db_read, hsck, hn', and_self, if_true, hm']
      obtain ⟨l1, x, l2, hsplit, q, hq, hval, hmin, hearly⟩ :=
        closestPred_found (readPred sck) m rows ⟨r, hrmem, q0, by rw [← hpe r]; exact hq0, hlt0⟩
      exact ⟨l1, x, l2, hsplit, q, by rw [hpe]; exact hq, by rw [hdb]; exact hval,
        fun y hy p hp => hmin y hy p (by rw [← hpe]; exact hp),
        fun y hy p hp => hearly y hy p (by rw [← hpe]; exact hp)⟩
    · -- program
      obtain ⟨r, hrmem, q0, hq0, hlt0⟩ := hex
      have hguard : ¬(g = .gWhole ∧ groupBytes g capacity = 0) ∧ 0 < pagesFor g capacity := by
        by_cases hc : ¬(g = .gWhole ∧ groupBytes g capacity = 0) ∧ 0 < pagesFor g capacity
        · exact hc
        · simp only [predOf] at hq0
          rw [if_neg hc] at hq0
          exact absurd hq0 (by simp)
      have hpe : ∀ y, predOf .prog sck capacity g y = writePred capacity g y := by
        intro y
        simp [predOf, hguard.1, hguard.2]
      have hdb : dbCell .prog rows sck capacity A g =
          (closestPred (writePred capacity g) m rows).2 := by
        have hn' : 0 < (A.write_s g).n := hn
        have hm' : (A.write_s g).mean = some m := hm
        simp only [db_write, dbCell, hn', hguard.1, hguard.2, not_false_eq_true, and_self,
          if_true, hm']
      obtain ⟨l1, x, l2, hsplit, q, hq, hval, hmin, hearly⟩ :=
        closestPred_found (writePred capacity g) m rows
          ⟨r, hrmem, q0, by rw [← hpe r]; exact hq0, hlt0⟩
      exact ⟨l1, x, l2, hsplit, q, by rw [hpe]; exact hq, by rw [hdb]; exact hval,
        fun y hy p hp => hmin y hy p (by rw [← hpe]; exact hp),
        fun y hy p hp => hearly y hy p (by rw [← hpe]; exact hp)⟩
    · -- erase
      have hpe : ∀ y, predOf .erase sck capacity g y = erasePredF g y := fun y => rfl
      have hdb : dbCell .erase rows sck capacity A g =
          (closestPred (erasePredF g) m rows).2 := by
        have hn' : 0 < (A.erase_s g).n := hn
        have hm' : (A.erase_s g).mean = some m := hm
        simp only [dbCell, db_erase, hn', if_true, hm']
      obtain ⟨r, hrmem, q0, hq0, hlt0⟩ := hex
      obtain ⟨l1, x, l2, hsplit, q, hq, hval, hmin, hearly⟩ :=
        closestPred_found (erasePredF g) m rows ⟨r, hrmem, q0, hq0, hlt0⟩
      exact ⟨l1, x, l2, hsplit, q, hq, by rw [hdb]; exact hval, hmin, hearly⟩
  · intro hn0
    rcases op with - | - | - <;>
      simp [dbCell, db_read, db_write, db_erase, statsOf] at hn0 ⊢ <;>
      simp [hn0]

theorem c1_witness :
    (0 < (statsOf .erase (collect_aggregates 0 0 [["x", "erase", "4096", "0", "46000", "0"]])
        .g4K).n ∧
      (statsOf .erase (collect_aggregates 0 0 [["x", "erase", "4096", "0", "46000", "0"]])
        .g4K).mean = some 46 ∧
      predOf .erase 0 0 .g4K exRowBF = some 45 ∧ |(45 : ℚ) - 46| < 10 ^ 9) ∧
    (∃ l1 x l2, [exRowBF] = l1 ++ x :: l2 ∧ ∃ q, predOf .erase 0 0 .g4K x = some q ∧
      dbCell .erase [exRowBF] 0 0
        (collect_aggregates 0 0 [["x", "erase", "4096", "0", "46000", "0"]]) .g4K = some q ∧
      (∀ y ∈ [exRowBF], ∀ p, predOf .erase 0 0 .g4K y = some p → |q - 46| ≤ |p - 46|) ∧
      (∀ y ∈ l1, ∀ p, predOf .erase 0 0 .g4K y = some p → |q - 46| < |p - 46|)) :=
  ⟨⟨by decide, by decide, by decide, by decide⟩,
    (c1_db_mean_closest .erase [exRowBF] 0 0
        (collect_aggregates 0 0 [["x", "erase", "4096", "0", "46000", "0"]]) .g4K).1
      46 (by decide) (by decide)
      ⟨exRowBF, by decide, 45, by decide, by decide⟩⟩

theorem c1_counterexample :
    0 < (statsOf .prog (collect_aggregates 0 0 [["id", "write", "1", "0", "1000", "0"]])
        .g1B).n ∧
    (statsOf .prog (collect_aggregates 0 0 [["id", "write", "1", "0", "1000", "0"]])
        .g1B).mean = some 1 ∧
    predOf .prog 0 0 .g1B exRowBig = some (2 * 10 ^ 9) ∧
    dbCell .prog [exRowBig] 0 0
      (collect_aggregates 0 0 [["id", "write", "1", "0", "1000", "0"]]) .g1B = none := by
  decide

theorem append_at_cap {n : Nat} (dst t : List Char) (hd : dst.length = n - 1) (hn : 2 ≤ n) :
    append_token n dst t = dst := by
  unfold append_token
  by_cases ht : t = [] ∨ n = 0
  · rw [if_pos ht]
  · rw [if_neg ht]
    have hd0 : ¬dst.length = 0 := by omega
    rw [if_neg hd0]
    have hcond : ¬(dst.length + 1 < n - 1) := by omega
    rw [if_neg hcond]
    unfold strncatL
    dsimp only
    have h0 : n - 1 - dst.length = 0 := by omega
    rw [h0]
    simp

theorem foldl_append_at_cap {n : Nat} (M : List (List Char)) (dst : List Char)
    (hd : dst.length = n - 1) (hn : 2 ≤ n) : M.foldl (append_token n) dst = dst := by
  induction M with
  | nil => rfl
  | cons t r ih =>
    rw [List.foldl_cons, append_at_cap dst t hd hn]
    exact ih

theorem append_step {n : Nat} (dst t : List Char) (hdst : dst ≠ []) (ht : t ≠ [])
    (hfit : dst.length + 1 + t.length ≤ n - 1) :
    append_token n dst t = dst ++ '/' :: t := by
  have htl : 1 ≤ t.length := List.length_pos.mpr ht
  have hdl : 1 ≤ dst.length := List.length_pos.mpr hdst
  have hn : 4 ≤ n := by omega
  unfold append_token
  rw [if_neg (by simp [ht]; omega)]
  rw [if_neg (by omega)]
  have hcond : dst.length + 1 < n - 1 := by omega
  rw [if_pos hcond]
  unfold strncatL
  dsimp only
  have h1 : (['/'] : List Char).take (n - 1 - dst.length) = ['/'] :=
    List.take_of_length_le (by simp; omega)
  rw [h1]
  have h2 : (dst ++ ['/']).length = dst.length + 1 := by simp
  rw [h2]
  have h3 : t.take (n - 1 - (dst.length + 1)) = t := List.take_of_length_le (by omega)
  rw [h3, List.append_assoc]
  rfl

theorem appendAll_fits {n : Nat} (M : List (List Char)) :
    ∀ (dst : List Char), dst ≠ [] → (∀ t ∈ M, t ≠ []) →
      dst.length + sumTok M ≤ n - 1 → M.foldl (append_token n) dst = dst ++ tailJoin M := by
  induction M with
  | nil =>
    intro dst _ _ _
    simp [tailJoin]
  | cons t r ih =>
    intro dst hdst hne hfit
    have htne : t ≠ [] := hne t (List.mem_cons_self t r)
    have hst : sumTok (t :: r) = 1 + t.length + sumTok r := rfl
    rw [List.foldl_cons, append_step dst t hdst htne (by omega)]
    rw [ih (dst ++ '/' :: t) (by simp) (fun u hu => hne u (List.mem_cons_of_mem t hu))
      (by simp; omega)]
    simp [tailJoin]

theorem intercalSl_cons (t : List Char) (r : List (List Char)) :
    intercalSl (t :: r) = t ++ tailJoin r := by
  induction r generalizing t with
  | nil => simp [intercalSl, tailJoin]
  | cons u r' ih =>
    rw [intercalSl, tailJoin, ih u]

theorem buildToks_fits {n : Nat} (M : List (List Char)) (hne : ∀ t ∈ M, t ≠ [])
    (hfit : sumTok M ≤ n - 1) : buildToks n M = intercalSl M := by
  cases M with
  | nil => rfl
  | cons t r =>
    have htne : t ≠ [] := hne t (List.mem_cons_self t r)
    have htl : 1 ≤ t.length := List.length_pos.mpr htne
    have hst : sumTok (t :: r) = 1 + t.length + sumTok r := rfl
    have hn : 2 ≤ n := by
      have : 0 ≤ sumTok r := Nat.zero_le _
      omega
    unfold buildToks
    rw [List.foldl_cons]
    have hfirst : append_token n [] t = t := by
      unfold append_token
      rw [if_neg (by simp [htne]; omega)]
      rw [if_pos (show ([] : List Char).length = 0 from rfl)]
      unfold strncatL
      simp [List.take_of_length_le (show t.length ≤ n - 1 by omega)]
    rw [hfirst, appendAll_fits r t htne (fun u hu => hne u (List.mem_cons_of_mem t hu))
      (by omega), intercalSl_cons]

theorem sumTok_all6 (M : List (List Char)) (h6 : ∀ t ∈ M, t.length = 6) :
    sumTok M = 7 * M.length := by
  induction M with
  | nil => rfl
  | cons t r ih =>
    have : sumTok (t :: r) = 1 + t.length + sumTok r := rfl
    rw [this, h6 t (List.mem_cons_self t r), ih (fun u hu => h6 u (List.mem_cons_of_mem t hu))]
    simp only [List.length_cons]
    omega

theorem length_tailJoin6 (M : List (List Char)) (h6 : ∀ t ∈ M, t.length = 6) :
    (tailJoin M).length = 7 * M.length := by
  induction M with
  | nil => rfl
  | cons t r ih =>
    rw [tailJoin]
    simp only [List.length_cons, List.length_append]
    rw [h6 t (List.mem_cons_self t r), ih (fun u hu => h6 u (List.mem_cons_of_mem t hu))]
    omega

theorem length_intercalSl6 (t : List Char) (r : List (List Char))
    (h6 : ∀ u ∈ t :: r, u.length = 6) :
    (intercalSl (t :: r)).length = 7 * r.length + 6 := by
  rw [intercalSl_cons]
  simp only [List.length_append]
  rw [h6 t (List.mem_cons_self t r), length_tailJoin6 r
    (fun u hu => h6 u (List.mem_cons_of_mem t hu))]
  omega

theorem append_trunc_step (dst t : List Char) (hd : dst.length = 251) (ht : t.length = 6) :
    append_token 256 dst t = dst ++ '/' :: t.take 3 := by
  have hdst : ¬dst.length = 0 := by omega
  have htne : ¬(t = [] ∨ (256 : Nat) = 0) := by
    simp
    intro h
    rw [h] at ht
    simp at ht
  unfold append_token
  rw [if_neg htne, if_neg hdst]
  have hcond : dst.length + 1 < 256 - 1 := by omega
  rw [if_pos hcond]
  unfold strncatL
  dsimp only
  have h1 : (['/'] : List Char).take (256 - 1 - dst.length) = ['/'] :=
    List.take_of_length_le (by simp; omega)
  rw [h1]
  have h2 : (dst ++ ['/']).length = 252 := by simp [hd]
  rw [h2]
  have h3 : (256 - 1 - 252 : Nat) = 3 := by norm_num
  rw [h3, List.append_assoc]
  rfl

theorem buildToks_trunc6 (M : List (List Char)) (h6 : ∀ t ∈ M, t.length = 6)
    (h37 : 37 ≤ M.length) :
    buildToks 256 M = intercalSl (M.take 36) ++ '/' :: (M.getD 36 []).take 3 := by
  have h36 : (M.take 36).length = 36 := by
    rw [List.length_take]
    omega
  have hdrop : M.drop 36 = M.getD 36 [] :: M.drop 37 := by
    rw [List.getD_eq_getElem M [] (by omega)]
    exact List.drop_eq_getElem_cons (by omega)
  have hsplit : M = M.take 36 ++ M.drop 36 := (List.take_append_drop 36 M).symm
  have h6' : ∀ t ∈ M.take 36, t.length = 6 := fun t htm => h6 t (List.mem_of_mem_take htm)
  have hne' : ∀ t ∈ M.take 36, t ≠ [] := by
    intro t htm
    have := h6' t htm
    intro h
    rw [h] at this
    simp at this
  have hinner : buildToks 256 (M.take 36) = intercalSl (M.take 36) := by
    apply buildToks_fits
    · exact hne'
    · rw [sumTok_all6 _ h6', h36]
      norm_num
  obtain ⟨u, r', hur⟩ : ∃ u r', M.take 36 = u :: r' := by
    rcases hu : M.take 36 with - | ⟨u, r'⟩
    · rw [hu] at h36
      simp at h36
    · exact ⟨u, r', rfl⟩
  have hlen251 : (intercalSl (M.take 36)).length = 251 := by
    rw [hur, length_intercalSl6 u r' (hur ▸ h6')]
    have : r'.length = 35 := by
      have := h36
      rw [hur] at this
      simp at this
      omega
    omega
  have hget6 : (M.getD 36 []).length = 6 := by
    apply h6
    rw [List.getD_eq_getElem M [] (by omega)]
    exact List.getElem_mem _
  calc buildToks 256 M = M.foldl (append_token 256) [] := rfl
    _ = (M.take 36 ++ M.drop 36).foldl (append_token 256) [] := by rw [← hsplit]
    _ = (M.drop 36).foldl (append_token 256) (buildToks 256 (M.take 36)) := by
        rw [List.foldl_append]
        rfl
    _ = (M.getD 36 [] :: M.drop 37).foldl (append_token 256) (intercalSl (M.take 36)) := by
        rw [hdrop, hinner]
    _ = (M.drop 37).foldl (append_token 256)
          (intercalSl (M.take 36) ++ '/' :: (M.getD 36 []).take 3) := by
        rw [List.foldl_cons, append_trunc_step _ _ hlen251 hget6]
    _ = intercalSl (M.take 36) ++ '/' :: (M.getD 36 []).take 3 := by
        apply foldl_append_at_cap
        · rw [List.length_append, hlen251, List.length_cons, List.length_take, hget6]
          norm_num
        · omega

theorem splitSlAux_free (t : List Char) (h : ∀ c ∈ t, c ≠ '/') :
    ∀ (rest acc : List Char), splitSlAux (t ++ rest) acc = splitSlAux rest (t.reverse ++ acc) := by
  induction t with
  | nil =>
    intro rest acc
    simp
  | cons c t' ih =>
    intro rest acc
    have hc : c ≠ '/' := h c (List.mem_cons_self c t')
    rw [List.cons_append]
    show splitSlAux (c :: (t' ++ rest)) acc = _
    rw [splitSlAux, if_neg hc, ih (fun d hd => h d (List.mem_cons_of_mem c hd)) rest (c :: acc)]
    congr 1
    simp

theorem splitSl_nil : splitSl [] = [] := rfl

theorem splitSl_slash (r : List Char) : splitSl ('/' :: r) = splitSl r := rfl

theorem splitSl_token (t : List Char) (ht : t ≠ []) (h : ∀ c ∈ t, c ≠ '/') :
    splitSl t = [t] := by
  have haux := splitSlAux_free t h [] []
  rw [List.append_nil] at haux
  show splitSlAux t [] = [t]
  rw [haux, splitSlAux, List.append_nil, if_neg (by simp [ht])]
  simp

theorem splitSl_tok_append (t rest : List Char) (ht : t ≠ []) (h : ∀ c ∈ t, c ≠ '/') :
    splitSl (t ++ '/' :: rest) = t :: splitSl rest := by
  have haux := splitSlAux_free t h ('/' :: rest) []
  rw [List.append_nil] at haux
  show splitSlAux (t ++ '/' :: rest) [] = _
  rw [haux, splitSlAux, if_pos rfl, if_neg (by simp [ht])]
  simp
  rfl

theorem renderCell_none_eq : ∀ M : List (List Char), renderCell M none = intercalSl M
  | [] => rfl
  | [_] => rfl
  | t :: u :: r => by
    show t ++ '/' :: renderCell (u :: r) none = _
    rw [renderCell_none_eq (u :: r)]
    rfl

theorem renderCell_some_eq : ∀ (M : List (List Char)) (f : List Char), M ≠ [] →
    renderCell M (some f) = intercalSl M ++ '/' :: f
  | [], _, hne => absurd rfl hne
  | [t], f, _ => rfl
  | t :: u :: r, f, _ => by
    show t ++ '/' :: renderCell (u :: r) (some f) = _
    rw [renderCell_some_eq (u :: r) f (by simp), intercalSl, List.append_assoc]
    rfl

theorem splitSl_intercal : ∀ M : List (List Char),
    (∀ t ∈ M, t ≠ [] ∧ ∀ c ∈ t, c ≠ '/') → splitSl (intercalSl M) = M
  | [], _ => splitSl_nil
  | [t], hwf =>
    splitSl_token t (hwf t (List.mem_cons_self t [])).1 (hwf t (List.mem_cons_self t [])).2
  | t :: u :: r, hwf => by
    rw [intercalSl, splitSl_tok_append t _ (hwf t (List.mem_cons_self t _)).1
      (hwf t (List.mem_cons_self t _)).2,
      splitSl_intercal (u :: r) (fun v hv => hwf v (List.mem_cons_of_mem t hv))]

theorem splitSl_intercal_frag : ∀ (M : List (List Char)) (f : List Char),
    (∀ t ∈ M, t ≠ [] ∧ ∀ c ∈ t, c ≠ '/') → f ≠ [] → (∀ c ∈ f, c ≠ '/') →
    splitSl (intercalSl M ++ '/' :: f) = M ++ [f]
  | [], f, _, hf, hfc => by
    rw [show intercalSl [] ++ '/' :: f = '/' :: f from rfl, splitSl_slash,
      splitSl_token f hf hfc]
    rfl
  | [t], f, hwf, hf, hfc => by
    rw [show intercalSl [t] = t from rfl,
      splitSl_tok_append t _ (hwf t (List.mem_cons_self t _)).1
        (hwf t (List.mem_cons_self t _)).2, splitSl_token f hf hfc]
    rfl
  | t :: u :: r, f, hwf, hf, hfc => by
    have hassoc : intercalSl (t :: u :: r) ++ '/' :: f =
        t ++ '/' :: (intercalSl (u :: r) ++ '/' :: f) := by
      rw [intercalSl]
      simp [List.append_assoc]
    rw [hassoc, splitSl_tok_append t _ (hwf t (List.mem_cons_self t _)).1
      (hwf t (List.mem_cons_self t _)).2,
      splitSl_intercal_frag (u :: r) f (fun v hv => hwf v (List.mem_cons_of_mem t hv)) hf hfc]
    rfl

theorem renderCell_cons_ne (t : List Char) (rest : List (List Char)) (fr : Option (List Char))
    (hne : ¬(rest = [] ∧ fr = none)) :
    renderCell (t :: rest) fr = t ++ '/' :: renderCell rest fr := by
  match rest, fr with
  | [], none => exact absurd ⟨rfl, rfl⟩ hne
  | [], some f => rfl
  | u :: r, fr => rfl

theorem substr_mem : ∀ (M : List (List Char)) (fr : Option (List Char)) (needle : List Char),
    (∀ t ∈ M, t.length = 6 ∧ ∀ c ∈ t, c ≠ '/') →
    (∀ f, fr = some f → f.length < 6 ∧ ∀ c ∈ f, c ≠ '/') →
    needle.length = 6 → (∀ c ∈ needle, c ≠ '/') →
    ∀ i, ((renderCell M fr).drop i).take 6 = needle → needle ∈ M := by
  intro M
  induction M with
  | nil =>
    intro fr needle hT hf h6 hns i hsub
    exfalso
    have hlen := congrArg List.length hsub
    rw [h6, List.length_take, List.length_drop] at hlen
    rcases fr with - | f
    · rw [show renderCell [] none = [] from rfl] at hlen
      simp at hlen
    · rw [show renderCell [] (some f) = f from rfl] at hlen
      have hfl : f.length < 6 := (hf f rfl).1
      omega
  | cons t rest ih =>
    intro fr needle hT hf h6 hns i hsub
    have ht6 : t.length = 6 := (hT t (List.mem_cons_self t rest)).1
    by_cases hend : rest = [] ∧ fr = none
    · rw [hend.1, hend.2, show renderCell [t] none = t from rfl] at hsub
      rcases Nat.eq_zero_or_pos i with rfl | hi
      · rw [List.drop_zero, List.take_of_length_le (le_of_eq ht6)] at hsub
        rw [← hsub]
        exact List.mem_cons_self t rest
      · exfalso
        have hlen := congrArg List.length hsub
        rw [h6, List.length_take, List.length_drop, ht6] at hlen
        omega
    · rw [renderCell_cons_ne t rest fr hend] at hsub
      by_cases h0 : i = 0
      · subst h0
        rw [List.drop_zero, List.take_append_eq_append_take,
          List.take_of_length_le (le_of_eq ht6), ht6, Nat.sub_self, List.take_zero,
          List.append_nil] at hsub
        rw [← hsub]
        exact List.mem_cons_self t rest
      · by_cases h6i : i ≤ 6
        · exfalso
          have hdrop : (t ++ '/' :: renderCell rest fr).drop i =
              t.drop i ++ '/' :: renderCell rest fr := by
            rw [List.drop_append_eq_append_drop, show i - t.length = 0 by omega,
              List.drop_zero]
          rw [hdrop, List.take_append_eq_append_take] at hsub
          have hdl : (t.drop i).length = 6 - i := by rw [List.length_drop, ht6]
          rw [List.take_of_length_le (by omega), hdl, show 6 - (6 - i) = (i - 1) + 1 by omega,
            List.take_succ_cons] at hsub
          exact hns '/' (hsub ▸ List.mem_append_right _ (List.mem_cons_self _ _)) rfl
        · have hdrop : (t ++ '/' :: renderCell rest fr).drop i =
              (renderCell rest fr).drop (i - 7) := by
            rw [List.drop_append_eq_append_drop,
              List.drop_eq_nil_of_le (by omega : t.length ≤ i), List.nil_append,
              show i - t.length = (i - 7) + 1 by omega, List.drop_succ_cons]
          rw [hdrop] at hsub
          exact List.mem_cons_of_mem t
            (ih fr needle (fun u hu => hT u (List.mem_cons_of_mem t hu)) hf h6 hns (i - 7) hsub)

theorem strstrB_exists {hay needle : List Char} (h : strstrB hay needle = true) :
    ∃ i, (hay.drop i).take needle.length = needle := by
  unfold strstrB at h
  rw [List.any_eq_true] at h
  obtain ⟨i, -, hb⟩ := h
  unfold substrAtB at hb
  exact ⟨i, of_decide_eq_true hb⟩

theorem strstrB_token_mem {M : List (List Char)} {fr : Option (List Char)}
    {needle : List Char} (hT : ∀ t ∈ M, t.length = 6 ∧ ∀ c ∈ t, c ≠ '/')
    (hf : ∀ f, fr = some f → f.length < 6 ∧ ∀ c ∈ f, c ≠ '/')
    (h6 : needle.length = 6) (hns : ∀ c ∈ needle, c ≠ '/')
    (h : strstrB (renderCell M fr) needle = true) : needle ∈ M := by
  obtain ⟨i, hi⟩ := strstrB_exists h
  rw [h6] at hi
  exact substr_mem M fr needle hT hf h6 hns i hi

theorem foldl_guard (p : DbRow → Bool) (n : Nat) :
    ∀ (l : List DbRow) (dst : List Char),
      l.foldl (fun acc r => if p r = true then append_token n acc r.jedec else acc) dst =
        ((l.filter p).map DbRow.jedec).foldl (append_token n) dst := by
  intro l
  induction l with
  | nil => intro dst; rfl
  | cons r t ih =>
    intro dst
    by_cases hp : p r = true
    · rw [List.foldl_cons, if_pos hp, List.filter_cons_of_pos hp, List.map_cons,
        List.foldl_cons]
      exact ih _
    · rw [List.foldl_cons, if_neg hp, List.filter_cons_of_neg (by simpa using hp)]
      exact ih dst

theorem db_read_some_sck {rows : List DbRow} {sck : ℚ} {S : Stats} {v : ℚ}
    (h : db_read rows sck S = some v) : 0 < sck := by
  by_cases hc : 0 < sck ∧ 0 < S.n
  · exact hc.1
  · unfold db_read at h
    rw [if_neg hc] at h
    exact absurd h (by simp)

theorem db_write_some_guard {rows : List DbRow} {capacity : Nat} {g : Group} {S : Stats}
    {v : ℚ} (h : db_write rows capacity g S = some v) :
    ¬(g = Group.gWhole ∧ groupBytes g capacity = 0) ∧ 0 < pagesFor g capacity := by
  by_cases hc : 0 < S.n ∧ ¬(g = Group.gWhole ∧ groupBytes g capacity = 0) ∧
      0 < pagesFor g capacity
  · exact hc.2
  · unfold db_write at h
    rw [if_neg hc] at h
    exact absurd h (by simp)

theorem groupBytes_pos {g : Group} {capacity : Nat}
    (h : ¬(g = Group.gWhole ∧ groupBytes g capacity = 0)) : 0 < groupBytes g capacity := by
  cases g
  case gWhole =>
    simp only [groupBytes] at h ⊢
    simp only [true_and, not_and, forall_const] at h
    omega
  all_goals norm_num [groupBytes]

theorem closestPred_map (pf pf' : DbRow → Option ℚ) (m : ℚ) (f : DbRow → DbRow)
    (hp : ∀ r, pf (f r) = pf' r) (l : List DbRow) :
    closestPred pf m (l.map f) = closestPred pf' m l := by
  unfold closestPred
  rw [List.foldl_map]
  congr 1
  funext acc r
  unfold closestStep
  rw [hp r]

theorem possCell_read_eq (rows : List DbRow) (sck : ℚ) (capacity : Nat) (g : Group)
    (v : ℚ) (hsck : 0 < sck) :
    possCell .read rows sck capacity g (some v) =
      (if buildToks 256 (candList .read sck capacity g v rows) = [] then NAc
       else buildToks 256 (candList .read sck capacity g v rows)) := by
  have hfun : (fun (acc : List Char) (r : DbRow) =>
      if 0 < r.read50_MBps ∧ r.jedec ≠ [] ∧
          float_almost_equal (r.read50_MBps * (sck / 50)) v then
        append_token 256 acc r.jedec
      else acc) =
      (fun (acc : List Char) (r : DbRow) =>
        if candB .read sck capacity g v r = true then append_token 256 acc r.jedec
        else acc) := by
    funext acc r
    refine if_congr ?_ rfl rfl
    simp only [candB, Bool.and_eq_true, decide_eq_true_eq]
    constructor
    · rintro ⟨h1, h2, h3⟩
      exact ⟨h2, h1, h3⟩
    · rintro ⟨h2, h1, h3⟩
      exact ⟨h1, h2, h3⟩
  simp only [possCell, hsck, if_true]
  rw [hfun, foldl_guard]
  rfl

theorem possCell_prog_eq (rows : List DbRow) (sck : ℚ) (capacity : Nat) (g : Group)
    (v : ℚ) (hg : ¬(g = Group.gWhole ∧ groupBytes g capacity = 0) ∧ 0 < pagesFor g capacity) :
    possCell .prog rows sck capacity g (some v) =
      (if buildToks 256 (candList .prog sck capacity g v rows) = [] then NAc
       else buildToks 256 (candList .prog sck capacity g v rows)) := by
  have hb := groupBytes_pos hg.1
  have hfun : (fun (acc : List Char) (r : DbRow) =>
      if 0 < r.typ_page_ms ∧ r.jedec ≠ [] ∧
          float_almost_equal (r.typ_page_ms * (pagesFor g capacity : ℚ)) v then
        append_token 256 acc r.jedec
      else acc) =
      (fun (acc : List Char) (r : DbRow) =>
        if candB .prog sck capacity g v r = true then append_token 256 acc r.jedec
        else acc) := by
    funext acc r
    refine if_congr ?_ rfl rfl
    simp only [candB, Bool.and_eq_true, decide_eq_true_eq]
    constructor
    · rintro ⟨h1, h2, h3⟩
      exact ⟨h2, h1, h3⟩
    · rintro ⟨h2, h1, h3⟩
      exact ⟨h1, h2, h3⟩
  simp only [possCell, hg.1, hg.2, hb, not_false_eq_true, and_self, if_true]
  rw [hfun, foldl_guard]
  rfl

theorem possCell_erase_eq (rows : List DbRow) (sck : ℚ) (capacity : Nat) (g : Group)
    (v : ℚ) :
    possCell .erase rows sck capacity g (some v) =
      (if buildToks 256 (candList .erase sck capacity g v rows) = [] then NAc
       else buildToks 256 (candList .erase sck capacity g v rows)) := by
  have hfun : (fun (acc : List Char) (r : DbRow) =>
      match eraseRef g r with
      | none => acc
      | some ref =>
        if r.jedec ≠ [] ∧ 0 < ref ∧ float_almost_equal ref v then
          append_token 256 acc r.jedec
        else acc) =
      (fun (acc : List Char) (r : DbRow) =>
        if candB .erase sck capacity g v r = true then append_token 256 acc r.jedec
        else acc) := by
    funext acc r
    rcases he : eraseRef g r with - | ref
    · simp [candB, he]
    · simp only [candB, he]
      refine if_congr ?_ rfl rfl
      rw [Bool.and_eq_true, Bool.and_eq_true, decide_eq_true_eq, decide_eq_true_eq]
  simp only [possCell]
  rw [hfun, foldl_guard]
  rfl

theorem buildCell_char (M : List (List Char))
    (hM : ∀ t ∈ M, t.length = 6 ∧ ∀ c ∈ t, c ≠ '/') :
    (M = [] → (if buildToks 256 M = [] then NAc else buildToks 256 M) = NAc) ∧
    (M ≠ [] → M.length ≤ 36 →
      splitSl (if buildToks 256 M = [] then NAc else buildToks 256 M) = M) ∧
    (37 ≤ M.length →
      splitSl (if buildToks 256 M = [] then NAc else buildToks 256 M) =
        M.take 36 ++ [(M.getD 36 []).take 3]) ∧
    (∀ j : List Char, j.length = 6 →
      (j ∈ splitSl (if buildToks 256 M = [] then NAc else buildToks 256 M) ↔
        j ∈ M.take 36)) := by
  have h6 : ∀ t ∈ M, t.length = 6 := fun t ht => (hM t ht).1
  have hne : ∀ t ∈ M, t ≠ [] := by
    intro t ht h0
    have := h6 t ht
    rw [h0] at this
    simp at this
  have hsl : ∀ t ∈ M, t ≠ [] ∧ ∀ c ∈ t, c ≠ '/' := fun t ht => ⟨hne t ht, (hM t ht).2⟩
  by_cases hnil : M = []
  · subst hnil
    have hcell : (if buildToks 256 ([] : List (List Char)) = [] then NAc
        else buildToks 256 []) = NAc := by simp [buildToks]
    refine ⟨fun _ => hcell, fun h => absurd rfl h, fun h => by simp at h, fun j hj => ?_⟩
    rw [hcell, splitSl_token NAc (by simp [NAc]) (by decide)]
    simp only [List.take_nil, List.not_mem_nil, iff_false, List.mem_singleton]
    intro hj2
    rw [hj2] at hj
    simp [NAc] at hj
  · by_cases h36 : M.length ≤ 36
    · have hs : buildToks 256 M = intercalSl M :=
        buildToks_fits M hne (by rw [sumTok_all6 M h6]; omega)
      have hsne : intercalSl M ≠ [] := by
        rcases hM' : M with - | ⟨t, r⟩
        · exact absurd hM' hnil
        · intro h
          have := length_intercalSl6 t r (hM' ▸ h6)
          rw [h] at this
          simp at this
      have hcell : (if buildToks 256 M = [] then NAc else buildToks 256 M) = intercalSl M := by
        rw [hs, if_neg hsne]
      refine ⟨fun h => absurd h hnil, fun _ _ => by rw [hcell]; exact splitSl_intercal M hsl,
        fun h37 => by omega, fun j hj => ?_⟩
      rw [hcell, splitSl_intercal M hsl, List.take_of_length_le h36]
    · have h37 : 37 ≤ M.length := by omega
      have hs := buildToks_trunc6 M h6 h37
      have hgmem : M.getD 36 [] ∈ M := by
        rw [List.getD_eq_getElem M [] (by omega)]
        exact List.getElem_mem _
      have hget6 : (M.getD 36 []).length = 6 := h6 _ hgmem
      have hfragne : (M.getD 36 []).take 3 ≠ [] := by
        intro h
        have := congrArg List.length h
        rw [List.length_take, hget6] at this
        simp at this
      have hfragsl : ∀ c ∈ (M.getD 36 []).take 3, c ≠ '/' :=
        fun c hc => (hM _ hgmem).2 c (List.mem_of_mem_take hc)
      have hsne : intercalSl (M.take 36) ++ '/' :: (M.getD 36 []).take 3 ≠ [] := by
        intro h
        rw [List.append_eq_nil] at h
        exact absurd h.2 (by simp)
      have hcell : (if buildToks 256 M = [] then NAc else buildToks 256 M) =
          intercalSl (M.take 36) ++ '/' :: (M.getD 36 []).take 3 := by
        rw [hs, if_neg hsne]
      have hsplit : splitSl (if buildToks 256 M = [] then NAc else buildToks 256 M) =
          M.take 36 ++ [(M.getD 36 []).take 3] := by
        rw [hcell]
        exact splitSl_intercal_frag (M.take 36) _
          (fun t ht => hsl t (List.mem_of_mem_take ht)) hfragne hfragsl
      refine ⟨fun h => absurd h hnil, fun _ h36' => by omega, fun _ => hsplit,
        fun j hj => ?_⟩
      rw [hsplit]
      constructor
      · intro hjm
        rcases List.mem_append.mp hjm with h | h
        · exact h
        · exfalso
          rw [List.mem_singleton] at h
          have := congrArg List.length h
          rw [hj, List.length_take, hget6] at this
          simp at this
      · exact fun h => List.mem_append_left _ h

/-- C4 (amended): for a cell with a non-NA `db_mean` value `v`, the
candidate cell is exactly the JEDECs — in catalogue order — of the rows
with a normalised six-hex-digit JEDEC, a positive relevant field and a
prediction `float_almost_equal` to `v`, TRUNCATED to the first 36 such
rows: the 256-byte cell buffer holds at most 36 six-digit entries plus a
three-character fragment of the 37th.  A six-character JEDEC appears in the
cell iff it is among the first 36 matching rows.  Rows without a JEDEC are
excluded from the cell but never influence the closest-winner value:
erasing every JEDEC leaves `db_mean` unchanged. -/
theorem c4_candidate_cells (op : Oper) (rows : List DbRow) (sck : ℚ) (capacity : Nat)
    (A : Agg) (g : Group) (v : ℚ) (hwf : ∀ r ∈ rows, rowWF r)
    (hdb : dbCell op rows sck capacity A g = some v) :
    (candList op sck capacity g v rows = [] →
      possCell op rows sck capacity g (some v) = NAc) ∧
    (candList op sck capacity g v rows ≠ [] →
      (candList op sck capacity g v rows).length ≤ 36 →
      splitSl (possCell op rows sck capacity g (some v)) =
        candList op sck capacity g v rows) ∧
    (37 ≤ (candList op sck capacity g v rows).length →
      splitSl (possCell op rows sck capacity g (some v)) =
        (candList op sck capacity g v rows).take 36 ++
          [((candList op sck capacity g v rows).getD 36 []).take 3]) ∧
    (∀ j : List Char, j.length = 6 →
      (j ∈ splitSl (possCell op rows sck capacity g (some v)) ↔
        j ∈ (candList op sck capacity g v rows).take 36)) ∧
    dbCell op (rows.map eraseJedec) sck capacity A g =
      dbCell op rows sck capacity A g := by
  have hMwf : ∀ t ∈ candList op sck capacity g v rows, t.length = 6 ∧ ∀ c ∈ t, c ≠ '/' := by
    intro t ht
    unfold candList at ht
    obtain ⟨r, hr, rfl⟩ := List.mem_map.mp ht
    have hrr : r ∈ rows := List.mem_of_mem_filter hr
    have hcand : candB op sck capacity g v r = true := List.of_mem_filter hr
    have hjne : r.jedec ≠ [] := by
      unfold candB at hcand
      rw [Bool.and_eq_true] at hcand
      exact of_decide_eq_true hcand.1
    rcases hwf r hrr with h0 | h
    · exact absurd h0 hjne
    · exact ⟨h.1, fun c hc => (h.2 c hc).1⟩
  have hposs : possCell op rows sck capacity g (some v) =
      (if buildToks 256 (candList op sck capacity g v rows) = [] then NAc
       else buildToks 256 (candList op sck capacity g v rows)) := by
    cases op
    · exact possCell_read_eq rows sck capacity g v (db_read_some_sck hdb)
    · exact possCell_prog_eq rows sck capacity g v (db_write_some_guard hdb)
    · exact possCell_erase_eq rows sck capacity g v
  have hchar := buildCell_char (candList op sck capacity g v rows) hMwf
  rw [hposs]
  refine ⟨hchar.1, hchar.2.1, hchar.2.2.1, hchar.2.2.2, ?_⟩
  cases op
  · have hc : ∀ m, closestPred (readPred sck) m (rows.map eraseJedec) =
        closestPred (readPred sck) m rows :=
      fun m => closestPred_map _ _ m eraseJedec (fun r => rfl) rows
    simp only [dbCell, db_read, hc]
  · have hc : ∀ m, closestPred (writePred capacity g) m (rows.map eraseJedec) =
        closestPred (writePred capacity g) m rows :=
      fun m => closestPred_map _ _ m eraseJedec (fun r => rfl) rows
    simp only [dbCell, db_write, hc]
  · have hc : ∀ m, closestPred (erasePredF g) m (rows.map eraseJedec) =
        closestPred (erasePredF g) m rows :=
      fun m => closestPred_map _ _ m eraseJedec (fun r => rfl) rows
    simp only [dbCell, db_erase, hc]

theorem c4_witness :
    (∀ r ∈ [exRowBF], rowWF r) ∧
    dbCell .erase [exRowBF] 0 0
      (collect_aggregates 0 0 [["x", "erase", "4096", "0", "46000", "0"]]) .g4K = some 45 ∧
    splitSl (possCell .erase [exRowBF] 0 0 .g4K (some 45)) =
      candList .erase 0 0 .g4K 45 [exRowBF] :=
  ⟨by decide, by decide,
    (c4_candidate_cells .erase [exRowBF] 0 0
        (collect_aggregates 0 0 [["x", "erase", "4096", "0", "46000", "0"]]) .g4K 45
        (by decide) (by decide)).2.1 (by decide) (by decide)⟩

set_option maxRecDepth 4000 in
theorem c4_counterexample :
    (exRow37 36).jedec.length = 6 ∧
    (∀ c ∈ (exRow37 36).jedec, isHexDig c = true) ∧
    candB .erase 0 0 .g4K 45 (exRow37 36) = true ∧
    exRow37 36 ∈ exRows37 ∧
    dbCell .erase exRows37 0 0
      (collect_aggregates 0 0 [["x", "erase", "4096", "0", "45000", "0"]]) .g4K = some 45 ∧
    (exRow37 36).jedec ∉ splitSl (possCell .erase exRows37 0 0 .g4K
      (dbCell .erase exRows37 0 0
        (collect_aggregates 0 0 [["x", "erase", "4096", "0", "45000", "0"]]) .g4K)) := by
  decide

theorem groupList_complete (g : Group) : g ∈ groupList := by
  cases g <;> simp [groupList]

theorem dropSpace_eq (tk : List Char) (h : ∀ c ∈ tk, c ≠ ' ') :
    tk.dropWhile (· = ' ') = tk := by
  cases tk with
  | nil => rfl
  | cons c r =>
    rw [List.dropWhile_cons]
    simp [h c (List.mem_cons_self c r)]

theorem splitSl_renderCell (M : List (List Char)) (frg : Option (List Char))
    (hM : ∀ t ∈ M, t ≠ [] ∧ ∀ c ∈ t, c ≠ '/')
    (hf : ∀ f, frg = some f → f ≠ [] ∧ ∀ c ∈ f, c ≠ '/') :
    splitSl (renderCell M frg) = M ++ frg.toList := by
  rcases frg with - | f
  · rw [Option.toList_none, renderCell_none_eq, splitSl_intercal M hM, List.append_nil]
  · rw [Option.toList_some]
    cases M with
    | nil =>
      rw [show renderCell [] (some f) = f from rfl,
        splitSl_token f (hf f rfl).1 (hf f rfl).2]
      rfl
    | cons t r =>
      rw [renderCell_some_eq (t :: r) f (by simp),
        splitSl_intercal_frag (t :: r) f hM (hf f rfl).1 (hf f rfl).2]

theorem renderCell_ne_nil (M : List (List Char)) (frg : Option (List Char)) (hM : M ≠ [])
    (h6 : ∀ t ∈ M, t.length = 6) : renderCell M frg ≠ [] := by
  cases M with
  | nil => exact absurd rfl hM
  | cons t rest =>
    by_cases hend : rest = [] ∧ frg = none
    · rw [hend.1, hend.2, show renderCell [t] none = t from rfl]
      intro h0
      have := h6 t (List.mem_cons_self t rest)
      rw [h0] at this
      simp at this
    · rw [renderCell_cons_ne t rest frg hend]
      simp

theorem renderCell_length_ge (M : List (List Char)) (frg : Option (List Char)) (hM : M ≠ [])
    (h6 : ∀ t ∈ M, t.length = 6) : 6 ≤ (renderCell M frg).length := by
  cases M with
  | nil => exact absurd rfl hM
  | cons t rest =>
    have ht6 := h6 t (List.mem_cons_self t rest)
    by_cases hend : rest = [] ∧ frg = none
    · rw [hend.1, hend.2, show renderCell [t] none = t from rfl, ht6]
    · rw [renderCell_cons_ne t rest frg hend]
      rw [List.length_append, ht6]
      omega

theorem renderCell_ne_NAc (M : List (List Char)) (frg : Option (List Char)) (hM : M ≠ [])
    (h6 : ∀ t ∈ M, t.length = 6) : renderCell M frg ≠ NAc := by
  intro h
  have := renderCell_length_ge M frg hM h6
  rw [h] at this
  simp [NAc] at this

theorem conclude_out_eq (poss : Group → List Char) (f : Group) :
    ∀ (toks : List (List Char)) (dst : List Char), (∀ tk ∈ toks, ∀ c ∈ tk, c ≠ ' ') →
      toks.foldl (fun acc tk0 =>
        let tk := tk0.dropWhile (· = ' ')
        if tk ≠ [] ∧ inAllB poss f tk then append_token 1024 acc tk else acc) dst =
      (toks.filter fun tk => decide (tk ≠ []) && inAllB poss f tk).foldl
        (append_token 1024) dst := by
  intro toks
  induction toks with
  | nil => intro dst _; rfl
  | cons tk0 rest ih =>
    intro dst hsp
    have hdr : tk0.dropWhile (· = ' ') = tk0 :=
      dropSpace_eq tk0 (hsp tk0 (List.mem_cons_self tk0 rest))
    rw [List.foldl_cons]
    simp only [hdr]
    by_cases hp : tk0 ≠ [] ∧ inAllB poss f tk0
    · rw [if_pos hp, List.filter_cons_of_pos (by simp [hp.1, hp.2]), List.foldl_cons,
        ih _ (fun u hu => hsp u (List.mem_cons_of_mem tk0 hu))]
    · rw [if_neg hp, List.filter_cons_of_neg (by
        simp only [Bool.and_eq_true, decide_eq_true_eq]
        intro hcon
        exact hp ⟨hcon.1, hcon.2⟩),
        ih dst (fun u hu => hsp u (List.mem_cons_of_mem tk0 hu))]

theorem sumTok_le (M : List (List Char)) (h : ∀ t ∈ M, t.length ≤ 6) :
    sumTok M ≤ 7 * M.length := by
  induction M with
  | nil => simp [sumTok]
  | cons t r ih =>
    have h1 : sumTok (t :: r) = 1 + t.length + sumTok r := rfl
    have h2 := h t (List.mem_cons_self t r)
    have h3 := ih fun u hu => h u (List.mem_cons_of_mem t hu)
    rw [h1]
    simp only [List.length_cons]
    omega

/-- C5: with candidate cells given as well-formed token lists — at most 36
six-character, separator- and space-free tokens per non-NA cell plus an
optional truncated fragment shorter than six characters, exactly the shape
`build_possible_chips_for_all_groups` emits — every six-character token
(JEDEC) of `conclusion_possible_chips` appears in the token list of every
non-NA group for that operation; the conclusion's tokens are a subsequence
of the seed (first non-NA) group's token sequence, so seed order is
preserved; a conclusion whose intersection is empty, or with no non-NA cell
at all, is the literal `NA`. -/
theorem c5_conclusion_intersection (T : Group → List (List Char))
    (fr : Group → Option (List Char)) (isna : Group → Bool)
    (hT : ∀ g, isna g = false → T g ≠ [] ∧ (T g).length ≤ 36 ∧
      ∀ t ∈ T g, t.length = 6 ∧ ∀ c ∈ t, c ≠ '/' ∧ c ≠ ' ')
    (hfr : ∀ g f, fr g = some f → f ≠ [] ∧ f.length < 6 ∧ ∀ c ∈ f, c ≠ '/' ∧ c ≠ ' ') :
    (∀ tok ∈ splitSl (conclude (mkPoss T fr isna)), tok.length = 6 →
      ∀ g, isna g = false → tok ∈ T g) ∧
    (∀ f, firstNonNA (mkPoss T fr isna) = some f →
      conclude (mkPoss T fr isna) = NAc ∨
        (splitSl (conclude (mkPoss T fr isna))).Sublist
          (splitSl (mkPoss T fr isna f))) ∧
    (∀ f, firstNonNA (mkPoss T fr isna) = some f →
      (splitSl (mkPoss T fr isna f)).filter
          (fun tk => decide (tk ≠ []) && inAllB (mkPoss T fr isna) f tk) = [] →
      conclude (mkPoss T fr isna) = NAc) ∧
    (firstNonNA (mkPoss T fr isna) = none → conclude (mkPoss T fr isna) = NAc) := by
  set poss := mkPoss T fr isna with hposs
  have hNAtok : splitSl NAc = [NAc] := splitSl_token NAc (by simp [NAc]) (by decide)
  rcases hfn : firstNonNA poss with - | f
  · have hcon : conclude poss = NAc := by
      simp only [conclude, hfn]
    refine ⟨?_, ?_, ?_, fun _ => hcon⟩
    · intro tok htok h6 g hg
      rw [hcon, hNAtok, List.mem_singleton] at htok
      rw [htok] at h6
      simp [NAc] at h6
    · intro f hf
      exact absurd hf (by simp)
    · intro f hf
      exact absurd hf (by simp)
  · have hfind : groupList.find? (fun g => decide (poss g ≠ [] ∧ poss g ≠ NAc))
        = some f := hfn
    have hpb := List.find?_some hfind
    simp only [decide_eq_true_eq] at hpb
    have hpf : poss f ≠ [] ∧ poss f ≠ NAc := hpb
    have hfna : isna f = false := by
      rcases hb : isna f
      · rfl
      · exfalso
        apply hpf.2
        simp [hposs, mkPoss, hb]
    obtain ⟨hTne, hT36, hTwf⟩ := hT f hfna
    have hpossf : poss f = renderCell (T f) (fr f) := by
      simp [hposs, mkPoss, hfna]
    have htoks : splitSl (poss f) = T f ++ (fr f).toList := by
      rw [hpossf]
      exact splitSl_renderCell (T f) (fr f)
        (fun t ht => ⟨by
          intro h0
          have := (hTwf t ht).1
          rw [h0] at this
          simp at this, fun c hc => ((hTwf t ht).2 c hc).1⟩)
        (fun fg hfg => ⟨(hfr f fg hfg).1, fun c hc => ((hfr f fg hfg).2.2 c hc).1⟩)
    have hspace : ∀ tk ∈ splitSl (poss f), ∀ c ∈ tk, c ≠ ' ' := by
      rw [htoks]
      intro tk htk c hc
      rcases List.mem_append.mp htk with h | h
      · exact ((hTwf tk h).2 c hc).2
      · rcases hf2 : fr f with - | fg
        · rw [hf2] at h
          simp at h
        · rw [hf2, Option.toList_some, List.mem_singleton] at h
          exact ((hfr f fg hf2).2.2 c (h ▸ hc)).2
    have htlen : ∀ tk ∈ splitSl (poss f), tk.length ≤ 6 := by
      rw [htoks]
      intro tk htk
      rcases List.mem_append.mp htk with h | h
      · exact le_of_eq (hTwf tk h).1
      · rcases hf2 : fr f with - | fg
        · rw [hf2] at h
          simp at h
        · rw [hf2, Option.toList_some, List.mem_singleton] at h
          exact le_of_lt (h ▸ (hfr f fg hf2).2.1)
    have htsl : ∀ tk ∈ splitSl (poss f), ∀ c ∈ tk, c ≠ '/' := by
      rw [htoks]
      intro tk htk c hc
      rcases List.mem_append.mp htk with h | h
      · exact ((hTwf tk h).2 c hc).1
      · rcases hf2 : fr f with - | fg
        · rw [hf2] at h
          simp at h
        · rw [hf2, Option.toList_some, List.mem_singleton] at h
          exact ((hfr f fg hf2).2.2 c (h ▸ hc)).1
    have hcon : conclude poss =
        (if buildToks 1024 ((splitSl (poss f)).filter
            (fun tk => decide (tk ≠ []) && inAllB poss f tk)) = [] then NAc
         else buildToks 1024 ((splitSl (poss f)).filter
            (fun tk => decide (tk ≠ []) && inAllB poss f tk))) := by
      simp only [conclude, hfn]
      rw [conclude_out_eq poss f (splitSl (poss f)) [] hspace]
      rfl
    have hFwfne : ∀ tk ∈ (splitSl (poss f)).filter
        (fun tk => decide (tk ≠ []) && inAllB poss f tk), tk ≠ [] := by
      intro tk htk
      have := List.of_mem_filter htk
      rw [Bool.and_eq_true, decide_eq_true_eq] at this
      exact this.1
    have hFfit : sumTok ((splitSl (poss f)).filter
        (fun tk => decide (tk ≠ []) && inAllB poss f tk)) ≤ 1024 - 1 := by
      have h1 : ∀ tk ∈ (splitSl (poss f)).filter
          (fun tk => decide (tk ≠ []) && inAllB poss f tk), tk.length ≤ 6 :=
        fun tk htk => htlen tk (List.mem_of_mem_filter htk)
      have h2 := sumTok_le _ h1
      have h3 : ((splitSl (poss f)).filter
          (fun tk => decide (tk ≠ []) && inAllB poss f tk)).length ≤ 37 := by
        refine le_trans (List.Sublist.length_le (List.filter_sublist _)) ?_
        rw [htoks, List.length_append]
        rcases fr f with - | fg
        · simp
          omega
        · simp
          omega
      omega
    by_cases hFnil : (splitSl (poss f)).filter
        (fun tk => decide (tk ≠ []) && inAllB poss f tk) = []
    · have hcna : conclude poss = NAc := by
        rw [hcon, hFnil]
        simp [buildToks]
      refine ⟨?_, fun f' _ => Or.inl hcna, fun f' _ _ => hcna, ?_⟩
      · intro tok htok h6 g hg
        rw [hcna, hNAtok, List.mem_singleton] at htok
        rw [htok] at h6
        simp [NAc] at h6
      · intro hf
        exact absurd hf (by simp)
    · have hbuild : buildToks 1024 ((splitSl (poss f)).filter
          (fun tk => decide (tk ≠ []) && inAllB poss f tk)) =
          intercalSl ((splitSl (poss f)).filter
            (fun tk => decide (tk ≠ []) && inAllB poss f tk)) :=
        buildToks_fits _ hFwfne hFfit
      have hine : intercalSl ((splitSl (poss f)).filter
          (fun tk => decide (tk ≠ []) && inAllB poss f tk)) ≠ [] := by
        rcases hFc : (splitSl (poss f)).filter
            (fun tk => decide (tk ≠ []) && inAllB poss f tk) with - | ⟨tk, rest⟩
        · exact absurd hFc hFnil
        · rw [intercalSl_cons]
          intro h0
          rw [List.append_eq_nil] at h0
          exact hFwfne tk (by rw [hFc]; exact List.mem_cons_self tk rest) h0.1
      have hcout : conclude poss = intercalSl ((splitSl (poss f)).filter
          (fun tk => decide (tk ≠ []) && inAllB poss f tk)) := by
        rw [hcon, hbuild, if_neg hine]
      have hsplitc : splitSl (conclude poss) = (splitSl (poss f)).filter
          (fun tk => decide (tk ≠ []) && inAllB poss f tk) := by
        rw [hcout]
        exact splitSl_intercal _ (fun tk htk => ⟨hFwfne tk htk,
          fun c hc => htsl tk (List.mem_of_mem_filter htk) c hc⟩)
      refine ⟨?_, fun f' hf' => ?_, fun f' hf' hFnil' => ?_, ?_⟩
      · intro tok htok h6 g hg
        rw [hsplitc] at htok
        have hmemtoks := List.mem_of_mem_filter htok
        have hpass := List.of_mem_filter htok
        rw [Bool.and_eq_true] at hpass
        have hinall := hpass.2
        have htoksl : ∀ c ∈ tok, c ≠ '/' := htsl tok hmemtoks
        by_cases hgf : g = f
        · subst hgf
          rw [htoks] at hmemtoks
          rcases List.mem_append.mp hmemtoks with h | h
          · exact h
          · exfalso
            rcases hf2 : fr g with - | fg
            · rw [hf2] at h
              simp at h
            · rw [hf2, Option.toList_some, List.mem_singleton] at h
              have := (hfr g fg hf2).2.1
              rw [← h] at this
              omega
        · have hall := List.all_eq_true.mp hinall g (groupList_complete g)
          have hprops := of_decide_eq_true hall
          have hgne : poss g ≠ [] := by
            have : poss g = renderCell (T g) (fr g) := by simp [hposs, mkPoss, hg]
            rw [this]
            exact renderCell_ne_nil (T g) (fr g) (hT g hg).1
              (fun t ht => ((hT g hg).2.2 t ht).1)
          have hgna : poss g ≠ NAc := by
            have : poss g = renderCell (T g) (fr g) := by simp [hposs, mkPoss, hg]
            rw [this]
            exact renderCell_ne_NAc (T g) (fr g) (hT g hg).1
              (fun t ht => ((hT g hg).2.2 t ht).1)
          rcases hprops with h | h | h | h
          · exact absurd h hgf
          · exact absurd h hgne
          · exact absurd h hgna
          · have hpg : poss g = renderCell (T g) (fr g) := by simp [hposs, mkPoss, hg]
            rw [hpg] at h
            exact strstrB_token_mem
              (fun t ht => ⟨((hT g hg).2.2 t ht).1,
                fun c hc => (((hT g hg).2.2 t ht).2 c hc).1⟩)
              (fun fg hfg => ⟨(hfr g fg hfg).2.1,
                fun c hc => ((hfr g fg hfg).2.2 c hc).1⟩)
              h6 htoksl h
      · obtain rfl := Option.some.inj hf'
        exact Or.inr (by rw [hsplitc]; exact List.filter_sublist _)
      · obtain rfl := Option.some.inj hf'
        exact absurd hFnil' hFnil
      · intro hf
        exact absurd hf (by simp)

/-- Witness for C5 at a concrete table: the 1-byte cell is `ABCDEF/123456`,
the 4K cell is `123456`, the conclusion evaluates to `123456`, and the
theorem places that surviving token in the 4K group's candidate list. -/
theorem c5_witness :
    conclude (mkPoss c5T c5fr c5isna) = ['1', '2', '3', '4', '5', '6'] ∧
    ['1', '2', '3', '4', '5', '6'] ∈ c5T Group.g4K :=
  ⟨by decide,
   (c5_conclusion_intersection c5T c5fr c5isna
      (by intro g hg; revert hg; cases g <;> decide)
      (fun g f hf => Option.noConfusion hf)).1
     ['1', '2', '3', '4', '5', '6'] (by decide) (by decide) Group.g4K (by decide)⟩

/-- C10: `classify_group` tests the five fixed byte widths before the WHOLE
comparison, so a sample whose size is 1, 256, 4096, 32768 or 65536 bytes is
placed in the corresponding fixed group whatever the detected capacity;
consequently, when the capacity equals one of those widths, no size ever
classifies as WHOLE and the WHOLE bucket of every vector stays empty on
every results stream. -/
theorem c10_fixed_sizes_shadow_whole (whole : Nat) :
    (classify_group 1 whole = some .g1B ∧ classify_group 256 whole = some .g256B ∧
      classify_group 4096 whole = some .g4K ∧ classify_group 32768 whole = some .g32K ∧
      classify_group 65536 whole = some .g64K) ∧
    (whole ∈ [1, 256, 4096, 32768, 65536] →
      (∀ s, classify_group s whole ≠ some .gWhole) ∧
      ∀ (lines : List (List String)) (k : Vek), vecOf whole lines k .gWhole = []) := by
  refine ⟨⟨rfl, rfl, rfl, rfl, rfl⟩, fun hw => ?_⟩
  have ha : ∀ s, classify_group s whole ≠ some .gWhole := by
    intro s h
    simp only [classify_group] at h
    split_ifs at h with h1 h2 h3 h4 h5 h6
    any_goals simp at h
    rcases h6 with ⟨-, rfl⟩
    simp only [List.mem_cons, List.not_mem_nil, or_false] at hw
    rcases hw with rfl | rfl | rfl | rfl | rfl <;> simp_all
  refine ⟨ha, fun lines k => ?_⟩
  rw [vecOf, List.filterMap_eq_nil_iff]
  intro line _
  simp only [lineVal]
  split
  · rfl
  · rcases hcl : classify_group (((parse_int_or ((lineFields line).getD 2 "") 0) %
        (2 ^ 32 : Int)).toNat) whole with - | g'
    · rfl
    · have hne : g' ≠ Group.gWhole := by
        intro hgw
        exact ha _ (hgw ▸ hcl)
      simp [hne]

theorem c10_witness :
    (256 : Nat) ∈ [1, 256, 4096, 32768, 65536] ∧
      (∀ s, classify_group s 256 ≠ some .gWhole) ∧
      vecOf 256 [["id", "read", "256", "0", "100", "0"]] Vek.readMB .gWhole = [] :=
  ⟨by decide,
    ((c10_fixed_sizes_shadow_whole 256).2 (by decide)).1,
    ((c10_fixed_sizes_shadow_whole 256).2 (by decide)).2 _ _⟩

/-- C7: when the device context's SCK frequency is 0 (unknown), the read
column of every `db_mean_<group>` report row is the literal `NA`, for every
catalogue, capacity and aggregate state. -/
theorem c7_sck_zero_read_db_mean_na (rows : List DbRow) (capacity : Nat) (A : Agg)
    (g : Group) (h : A.sck = 0) :
    f3_or_na (dbCell .read rows A.sck capacity A g) = Cell.na := by
  simp [dbCell, db_read, h, f3_or_na]

theorem c7_witness :
    (collect_aggregates 0 0 [["id", "read", "4096", "0", "800", "0"]]).sck = 0 ∧
      f3_or_na (dbCell .read [] (collect_aggregates 0 0 [["id", "read", "4096", "0", "800", "0"]]).sck
        0 (collect_aggregates 0 0 [["id", "read", "4096", "0", "800", "0"]]) .g4K) = Cell.na :=
  ⟨rfl, c7_sck_zero_read_db_mean_na [] 0 _ .g4K rfl⟩

/-- C9: the catalogue loader keeps exactly the first `MAX_DB_ROWS = 512`
parseable data rows of the stream — every later row is silently dropped and
never reaches matching, candidate listing, scoring or identity lookup — and
the loaded table never exceeds 512 rows. -/
theorem c9_loader_caps_512 (idx : ColIdx) (lines : List (List String)) :
    load_database idx MAX_DB_ROWS lines =
      ((lines.filter fun l => dbParseable l).take 512).map (parseDbRow idx) ∧
    (load_database idx MAX_DB_ROWS lines).length ≤ 512 := by
  have h := load_database_eq_take idx MAX_DB_ROWS lines
  refine ⟨h, ?_⟩
  rw [h, List.length_map, List.length_take]
  simp only [MAX_DB_ROWS]
  omega

end Report
